import Mathlib

set_option linter.unusedVariables false

/-!
# Verification of the pybundle roadmap subsystem

Shallow embedding of `src/pybundle/roadmap_scan.py`, `src/pybundle/roadmap_model.py`
and `src/pybundle/steps/roadmap.py` (the repository dependency-graph builder), with
theorems settling the behavioural claims about it.

Conventions of the embedding:
* Python strings are Lean `String`s; all comparisons and manipulations are done
  through `String.data` (`List Char`) with structural recursion so that every
  definition evaluates inside the kernel.
* Filesystem state is passed explicitly: the walker receives, per include root,
  the directory contents in the order `os.walk` would yield them after the
  in-place `dirnames` pruning of excluded / venv-shaped directories (that pruning
  inspects only the filesystem, so its outcome is data to the walker); the
  resolver receives the set of repo-relative paths that are regular files.
* Python file contents are represented by their parsed `ast` import statements
  (`ast.parse` itself is not modelled; a file that would fail to parse is
  represented by `none`, matching the `except: return []` path).
-/

/-! ## Character/string order primitives (Python `<` on `str` is lexicographic
on code points; `String.data` gives the code-point list) -/

/-- Lexicographic strict "less or equal" on char lists, by code point.
Mirrors Python string comparison used by `sorted(...)` keys. -/
def charsLe : List Char → List Char → Bool
  | [], _ => true
  | _ :: _, [] => false
  | a :: as, b :: bs => a.toNat < b.toNat || (a = b && charsLe as bs)

/-- Python `str` comparison (`a <= b`). -/
def strLe (a b : String) : Bool := charsLe a.data b.data

theorem charsLe_total : ∀ u v : List Char, charsLe u v = true ∨ charsLe v u = true := by
  intro u
  induction u with
  | nil => intro v; left; rfl
  | cons a as ih =>
    intro v
    cases v with
    | nil => right; rfl
    | cons b bs =>
      simp only [charsLe, Bool.or_eq_true, Bool.and_eq_true, decide_eq_true_eq]
      rcases Nat.lt_trichotomy a.toNat b.toNat with h | h | h
      · left; left; omega
      · have hab : a = b := Char.eq_of_val_eq (UInt32.ext h)
        rcases ih bs with h' | h'
        · left; right; exact ⟨hab, h'⟩
        · right; right; exact ⟨hab.symm, h'⟩
      · right; left; omega

theorem charsLe_trans : ∀ u v w : List Char,
    charsLe u v = true → charsLe v w = true → charsLe u w = true := by
  intro u
  induction u with
  | nil => intro v w _ _; rfl
  | cons a as ih =>
    intro v w huv hvw
    cases v with
    | nil => simp [charsLe] at huv
    | cons b bs =>
      cases w with
      | nil => simp [charsLe] at hvw
      | cons c cs =>
        simp only [charsLe, Bool.or_eq_true, Bool.and_eq_true, decide_eq_true_eq] at *
        rcases huv with h1 | ⟨h1e, h1r⟩
        · rcases hvw with h2 | ⟨h2e, h2r⟩
          · left; omega
          · left; rwa [← h2e]
        · rcases hvw with h2 | ⟨h2e, h2r⟩
          · left; rwa [h1e]
          · right; exact ⟨h1e.trans h2e, ih bs cs h1r h2r⟩

theorem charsLe_antisymm : ∀ u v : List Char,
    charsLe u v = true → charsLe v u = true → u = v := by
  intro u
  induction u with
  | nil =>
    intro v _ hvu
    cases v with
    | nil => rfl
    | cons b bs => simp [charsLe] at hvu
  | cons a as ih =>
    intro v huv hvu
    cases v with
    | nil => simp [charsLe] at huv
    | cons b bs =>
      simp only [charsLe, Bool.or_eq_true, Bool.and_eq_true, decide_eq_true_eq] at huv hvu
      rcases huv with h1 | ⟨h1e, h1r⟩
      · rcases hvu with h2 | ⟨h2e, h2r⟩
        · omega
        · exfalso; rw [h2e] at h1; omega
      · rcases hvu with h2 | ⟨h2e, h2r⟩
        · exfalso; rw [h1e] at h2; omega
        · rw [h1e, ih bs h1r h2r]

theorem charsLe_refl : ∀ u : List Char, charsLe u u = true := by
  intro u
  induction u with
  | nil => rfl
  | cons a as ih => simp [charsLe, ih]

theorem strLe_refl (a : String) : strLe a a = true := charsLe_refl a.data

theorem strLe_total (a b : String) : strLe a b = true ∨ strLe b a = true :=
  charsLe_total a.data b.data

theorem strLe_trans {a b c : String} (h1 : strLe a b = true) (h2 : strLe b c = true) :
    strLe a c = true :=
  charsLe_trans a.data b.data c.data h1 h2

theorem strLe_antisymm {a b : String} (h1 : strLe a b = true) (h2 : strLe b a = true) :
    a = b := by
  have h := charsLe_antisymm a.data b.data h1 h2
  cases a; cases b; exact congrArg String.mk h

/-! ## Sort keys

Python sorts with tuple keys mixing ascending strings and a descending integer
(`-e.confidence`).  A key is modelled as a list of `SKey` atoms compared
lexicographically. -/

/-- One atom of a Python sort key: an ascending string or a descending natural. -/
inductive SKey where
  | s (v : String)
  | nd (v : Nat)
deriving DecidableEq, Repr

/-- "Less or equal" on key atoms: strings ascending, `nd` naturals descending
(modelling Python's `-e.confidence`).  Atoms of different shapes are never
compared by the code; the cross cases are fixed arbitrarily but totally. -/
def skeyLe : SKey → SKey → Bool
  | .s a, .s b => strLe a b
  | .nd a, .nd b => b ≤ a
  | .s _, .nd _ => true
  | .nd _, .s _ => false

theorem skeyLe_total (a b : SKey) : skeyLe a b = true ∨ skeyLe b a = true := by
  cases a with
  | s x =>
    cases b with
    | s y => exact strLe_total x y
    | nd y => left; rfl
  | nd x =>
    cases b with
    | s y => right; rfl
    | nd y => simp only [skeyLe, decide_eq_true_eq]; omega

theorem skeyLe_trans {a b c : SKey} (h1 : skeyLe a b = true) (h2 : skeyLe b c = true) :
    skeyLe a c = true := by
  cases a with
  | s x =>
    cases b with
    | s y =>
      cases c with
      | s z => exact strLe_trans h1 h2
      | nd z => rfl
    | nd y =>
      cases c with
      | s z => exact absurd h2 (by simp [skeyLe])
      | nd z => rfl
  | nd x =>
    cases b with
    | s y => exact absurd h1 (by simp [skeyLe])
    | nd y =>
      cases c with
      | s z => exact absurd h2 (by simp [skeyLe])
      | nd z =>
        simp only [skeyLe, decide_eq_true_eq] at h1 h2 ⊢
        omega

theorem skeyLe_antisymm {a b : SKey} (h1 : skeyLe a b = true) (h2 : skeyLe b a = true) :
    a = b := by
  cases a with
  | s x =>
    cases b with
    | s y => rw [strLe_antisymm h1 h2]
    | nd y => exact absurd h2 (by simp [skeyLe])
  | nd x =>
    cases b with
    | s y => exact absurd h1 (by simp [skeyLe])
    | nd y =>
      simp only [skeyLe, decide_eq_true_eq] at h1 h2
      have : x = y := by omega
      rw [this]

theorem skeyLe_refl (a : SKey) : skeyLe a a = true := by
  cases a with
  | s x => exact strLe_refl x
  | nd x => simp [skeyLe]

/-- Lexicographic comparison of key-atom lists (Python tuple comparison). -/
def keyLex : List SKey → List SKey → Bool
  | [], _ => true
  | _ :: _, [] => false
  | a :: as, b :: bs =>
    (skeyLe a b && !skeyLe b a) || (a = b && keyLex as bs)

theorem keyLex_total : ∀ u v : List SKey, keyLex u v = true ∨ keyLex v u = true := by
  intro u
  induction u with
  | nil => intro v; left; rfl
  | cons a as ih =>
    intro v
    cases v with
    | nil => right; rfl
    | cons b bs =>
      simp only [keyLex, Bool.or_eq_true, Bool.and_eq_true, Bool.not_eq_true',
        decide_eq_true_eq]
      by_cases hab : a = b
      · subst hab
        rcases ih bs with h | h
        · left; right; exact ⟨rfl, h⟩
        · right; right; exact ⟨rfl, h⟩
      · rcases skeyLe_total a b with h1 | h1
        · by_cases h2 : skeyLe b a = true
          · exact absurd (skeyLe_antisymm h1 h2) hab
          · left; left; exact ⟨h1, by simpa using h2⟩
        · by_cases h2 : skeyLe a b = true
          · exact absurd (skeyLe_antisymm h2 h1) hab
          · right; left; exact ⟨h1, by simpa using h2⟩

theorem keyLex_trans : ∀ u v w : List SKey,
    keyLex u v = true → keyLex v w = true → keyLex u w = true := by
  intro u
  induction u with
  | nil => intro v w _ _; rfl
  | cons a as ih =>
    intro v w huv hvw
    cases v with
    | nil => simp [keyLex] at huv
    | cons b bs =>
      cases w with
      | nil => simp [keyLex] at hvw
      | cons c cs =>
        simp only [keyLex, Bool.or_eq_true, Bool.and_eq_true, Bool.not_eq_true',
          decide_eq_true_eq] at *
        rcases huv with ⟨h1, h1n⟩ | ⟨h1e, h1r⟩
        · rcases hvw with ⟨h2, h2n⟩ | ⟨h2e, h2r⟩
          · left
            refine ⟨skeyLe_trans h1 h2, ?_⟩
            by_contra hca
            simp only [Bool.not_eq_false] at hca
            have : skeyLe c b = true := skeyLe_trans hca h1
            rw [this] at h2n; exact absurd h2n (by simp)
          · left; rw [← h2e]; exact ⟨h1, h1n⟩
        · rcases hvw with ⟨h2, h2n⟩ | ⟨h2e, h2r⟩
          · left; rw [h1e]; exact ⟨h2, h2n⟩
          · right; exact ⟨h1e.trans h2e, ih bs cs h1r h2r⟩

theorem keyLex_antisymm : ∀ u v : List SKey,
    keyLex u v = true → keyLex v u = true → u = v := by
  intro u
  induction u with
  | nil =>
    intro v _ hvu
    cases v with
    | nil => rfl
    | cons b bs => simp [keyLex] at hvu
  | cons a as ih =>
    intro v huv hvu
    cases v with
    | nil => simp [keyLex] at huv
    | cons b bs =>
      simp only [keyLex, Bool.or_eq_true, Bool.and_eq_true, Bool.not_eq_true',
        decide_eq_true_eq] at huv hvu
      rcases huv with ⟨h1, h1n⟩ | ⟨h1e, h1r⟩
      · rcases hvu with ⟨h2, h2n⟩ | ⟨h2e, h2r⟩
        · rw [h2] at h1n; exact absurd h1n (by simp)
        · rw [h2e] at h1n; rw [skeyLe_refl] at h1n; exact absurd h1n (by simp)
      · rcases hvu with ⟨h2, h2n⟩ | ⟨h2e, h2r⟩
        · rw [h1e] at h2n; rw [skeyLe_refl] at h2n; exact absurd h2n (by simp)
        · rw [h1e, ih bs h1r h2r]

/-! ## Key-based sorting (models Python's `sorted(..., key=...)`) -/

/-- The ordering induced by a key function: compare the key tuples. -/
def keyLe {α : Type} (ks : α → List SKey) (a b : α) : Prop :=
  keyLex (ks a) (ks b) = true

instance {α : Type} (ks : α → List SKey) : DecidableRel (keyLe ks) :=
  fun a b => inferInstanceAs (Decidable (_ = true))

instance {α : Type} (ks : α → List SKey) : IsTotal α (keyLe ks) :=
  ⟨fun a b => keyLex_total (ks a) (ks b)⟩

instance {α : Type} (ks : α → List SKey) : IsTrans α (keyLe ks) :=
  ⟨fun a b c => keyLex_trans (ks a) (ks b) (ks c)⟩

/-- `sorted(l, key=ks)`: stable sort by key tuple. -/
def sortBy {α : Type} (ks : α → List SKey) (l : List α) : List α :=
  l.insertionSort (keyLe ks)

theorem sortBy_perm {α : Type} (ks : α → List SKey) (l : List α) :
    (sortBy ks l).Perm l :=
  List.perm_insertionSort (keyLe ks) l

theorem sortBy_sorted {α : Type} (ks : α → List SKey) (l : List α) :
    (sortBy ks l).Sorted (keyLe ks) :=
  List.sorted_insertionSort (keyLe ks) l

theorem sortBy_mem {α : Type} (ks : α → List SKey) {l : List α} {x : α} :
    x ∈ sortBy ks l ↔ x ∈ l :=
  (sortBy_perm ks l).mem_iff

/-- Two sorted lists that are permutations of each other and whose elements are
determined by their keys are equal.  This is the determinism core: the final
sorted output is independent of discovery order. -/
theorem eq_of_perm_of_sorted_keys {α : Type} (ks : α → List SKey) :
    ∀ l1 l2 : List α, l1.Perm l2 → l1.Sorted (keyLe ks) → l2.Sorted (keyLe ks) →
      (∀ a ∈ l1, ∀ b ∈ l1, ks a = ks b → a = b) → l1 = l2 := by
  intro l1
  induction l1 with
  | nil => intro l2 hp _ _ _; exact hp.nil_eq
  | cons a t1 ih =>
    intro l2 hp hs1 hs2 hinj
    cases l2 with
    | nil => exact absurd hp.symm.nil_eq (by simp)
    | cons b t2 =>
      have hab : a = b := by
        have hamem : a ∈ b :: t2 := hp.subset (List.mem_cons_self a t1)
        rcases List.mem_cons.mp hamem with h | hat2
        · exact h
        · -- `a` sits in `t2`, so `keyLe b a`; and `b ∈ a :: t1` gives `keyLe a b`
          have hba : keyLe ks b a := (List.sorted_cons.mp hs2).1 a hat2
          have hbmem : b ∈ a :: t1 := hp.symm.subset (List.mem_cons_self b t2)
          rcases List.mem_cons.mp hbmem with h | hbt1
          · exact h.symm
          · have hab' : keyLe ks a b := (List.sorted_cons.mp hs1).1 b hbt1
            have hk : ks a = ks b := keyLex_antisymm (ks a) (ks b) hab' hba
            exact hinj a (List.mem_cons_self a t1) b (List.mem_cons.mpr (Or.inr hbt1)) hk
      subst hab
      have hp' : t1.Perm t2 := (List.perm_cons a).mp hp
      have := ih t2 hp' (List.sorted_cons.mp hs1).2 (List.sorted_cons.mp hs2).2
        (fun x hx y hy hk =>
          hinj x (List.mem_cons.mpr (Or.inr hx)) y (List.mem_cons.mpr (Or.inr hy)) hk)
      rw [this]

/-- Sorting two permuted lists with key-determined elements gives identical results. -/
theorem sortBy_eq_of_perm {α : Type} (ks : α → List SKey) (l1 l2 : List α)
    (hp : l1.Perm l2) (hinj : ∀ a ∈ l1, ∀ b ∈ l1, ks a = ks b → a = b) :
    sortBy ks l1 = sortBy ks l2 := by
  refine eq_of_perm_of_sorted_keys ks _ _
    ((sortBy_perm ks l1).trans (hp.trans (sortBy_perm ks l2).symm))
    (sortBy_sorted ks l1) (sortBy_sorted ks l2) ?_
  intro a ha b hb hk
  exact hinj a (sortBy_mem ks |>.mp ha) b (sortBy_mem ks |>.mp hb) hk

/-! ## String utilities (kernel-computable counterparts of the Python
`str` / `pathlib` operations used by the scanner) -/

/-- Whitespace class of Python's regex `\s` (ASCII part; the scanner's inputs
are source code, where this coincides with `re`'s behaviour). -/
def isSpaceRe (c : Char) : Bool :=
  c = ' ' || c = '\t' || c = '\n' || c = '\r' || c = '\x0b' || c = '\x0c'

/-- `pre` is a prefix of `s` (Python `str.startswith`). -/
def strStarts (pre s : String) : Bool := pre.data.isPrefixOf s.data

/-- `suf` is a suffix of `s` (Python `str.endswith`). -/
def strEnds (suf s : String) : Bool := suf.data.reverse.isPrefixOf s.data.reverse

/-- Helper for `strContains`: `sub` is a prefix of some suffix. -/
def charsContains (sub : List Char) : List Char → Bool
  | [] => sub.isEmpty
  | c :: rest => sub.isPrefixOf (c :: rest) || charsContains sub rest

/-- `sub` occurs inside `s` (Python `in` on strings). -/
def strContains (sub s : String) : Bool := charsContains sub.data s.data

/-- Helper for `splitStr`. -/
def splitStrAux (c : Char) : List Char → List Char → List String
  | [], acc => [String.mk acc.reverse]
  | x :: xs, acc =>
    if x = c then String.mk acc.reverse :: splitStrAux c xs []
    else splitStrAux c xs (x :: acc)

/-- Python `s.split(c)` for a one-character separator (`"".split(c) = [""]`,
empty fields preserved). -/
def splitStr (c : Char) (s : String) : List String := splitStrAux c s.data []

/-- The lines of `s` as cut at `'\n'`, the boundaries at which `re.M`'s `^`/`$`
anchor. -/
def strLines (s : String) : List String := splitStr '\n' s

/-- Repo-relative path → its components (pathlib `Path.parts` for a relative
path without empty segments; the scanner's `_rel` always produces such paths). -/
def pathParts (s : String) : List String := splitStr '/' s

/-- Components → path string (`str(Path(...))` up to the "." special case,
which the scanner never hits for discovered files). -/
def joinParts : List String → String
  | [] => ""
  | [p] => p
  | p :: rest => p ++ "/" ++ joinParts rest

/-- `splitAtFirstDotRev rev`: on a REVERSED name, the chars before the first
`'.'` (= chars after the last `'.'` of the original) and the rest. -/
def splitAtFirstDotRev : List Char → Option (List Char × List Char)
  | [] => none
  | c :: rest =>
    if c = '.' then some ([], rest)
    else (splitAtFirstDotRev rest).map (fun p => (c :: p.1, p.2))

/-- pathlib `PurePath.suffix`: the final component's extension including the
dot, empty when the last dot is the first or last character of the name. -/
def pathSuffix (path : String) : String :=
  let name := (pathParts path).getLastD ""
  match splitAtFirstDotRev name.data.reverse with
  | some (body, pre) =>
    if body ≠ [] ∧ pre ≠ [] then String.mk ('.' :: body.reverse) else ""
  | none => ""

/-- ASCII lowercase (`str.lower` restricted to the ASCII range; every
extension compared by the classifier is ASCII). -/
def strLower (s : String) : String := String.mk (s.data.map Char.toLower)

/-! ## Data model (`src/pybundle/roadmap_model.py`) -/

/-- `Lang` literal of `roadmap_model.py` / `roadmap_scan.py`. -/
inductive Lang where
  | python | js | ts | rust | html | css | config | unknown
deriving DecidableEq, Repr

/-- `EdgeType` literal.  The Lean constructor for `"import"` is named `imp`
(`import` is reserved); `incl` stands for `"include"`. -/
inductive EdgeType where
  | imp | require | use | mod | incl | script | entrypoint
deriving DecidableEq, Repr

/-- The string value of an `EdgeType` literal, as compared/serialized by Python. -/
def typeStr : EdgeType → String
  | .imp => "import"
  | .require => "require"
  | .use => "use"
  | .mod => "mod"
  | .incl => "include"
  | .script => "script"
  | .entrypoint => "entrypoint"

/-- The string value of a `Lang` literal. -/
def langStr : Lang → String
  | .python => "python"
  | .js => "js"
  | .ts => "ts"
  | .rust => "rust"
  | .html => "html"
  | .css => "css"
  | .config => "config"
  | .unknown => "unknown"

/-- `Node` dataclass. -/
structure Node where
  id : String
  path : String
  lang : Lang
deriving DecidableEq, Repr

/-- `Edge` dataclass (`note` defaults to `""` at every construction site of
`roadmap_scan.py`). -/
structure Edge where
  src : String
  dst : String
  type : EdgeType
  note : String
deriving DecidableEq, Repr

/-- `EntryPoint` dataclass. -/
structure EntryPoint where
  node : String
  reason : String
  confidence : Nat
deriving DecidableEq, Repr

/-- `RoadmapGraph` dataclass.  `stats` is an insertion-ordered association
list, mirroring a Python `dict[str, int]` (whose key order is preserved on
serialization). -/
structure RoadmapGraph where
  version : Nat
  root : String
  nodes : List Node
  edges : List Edge
  entrypoints : List EntryPoint
  stats : List (String × Nat)
deriving DecidableEq, Repr

/-! ## File classifier (`guess_lang`, `roadmap_scan.py` lines 27-36) -/

/-- `guess_lang`: classify by lowercased pathlib suffix. -/
def guess_lang (path : String) : Lang :=
  let suf := strLower (pathSuffix path)
  if suf = ".py" then .python
  else if suf = ".ts" ∨ suf = ".tsx" then .ts
  else if suf = ".js" ∨ suf = ".jsx" ∨ suf = ".mjs" ∨ suf = ".cjs" then .js
  else if suf = ".rs" then .rust
  else if suf = ".html" ∨ suf = ".jinja" ∨ suf = ".j2" then .html
  else if suf = ".css" ∨ suf = ".scss" ∨ suf = ".sass" then .css
  else if suf = ".toml" ∨ suf = ".yaml" ∨ suf = ".yml" ∨ suf = ".json" ∨
          suf = ".ini" ∨ suf = ".cfg" then .config
  else .unknown

/-! ## Reference extractor: Python (`scan_python_imports`, lines 38-52)

`ast.parse` is not re-implemented; a Python file is represented by its parsed
import-bearing AST nodes in `ast.walk` order.  CPython stores the dotted module
name of a `from`-import WITHOUT its leading dots: `from ..b import x` parses to
`ImportFrom(module="b", level=2)` and `from . import x` to
`ImportFrom(module=None, level=1)` — the dots live only in `level`. -/

/-- An import-bearing AST node: `ast.Import` (one name per alias) or
`ast.ImportFrom` (module name without dots, plus the relative `level`). -/
inductive PyStmt where
  | imp (names : List String)
  | impFrom (module : Option String) (level : Nat)
deriving DecidableEq, Repr

/-- A scanned file's content: a parsed Python module (`none` = `ast.parse`
raised, the `except Exception: return []` path), or raw text for the
regex-scanned languages. -/
inductive FileContent where
  | py (parsed : Option (List PyStmt))
  | text (s : String)
deriving DecidableEq, Repr

/-- The `f.read_text(...)` result for regex-scanned files.  (A `.py` file is
read through `ast` instead; the `.py` case never reaches a text scanner.) -/
def getText : FileContent → String
  | .text s => s
  | .py _ => ""

/-- `scan_python_imports`: collect `a.name` of every `ast.Import` alias and
`n.module` of every `ast.ImportFrom` with a non-`None` module.  `n.level` is
read nowhere, so the relative-import dots are lost here. -/
def scan_python_imports : FileContent → List String
  | .py (some stmts) =>
    stmts.flatMap fun st =>
      match st with
      | .imp names => names
      | .impFrom (some m) _ => [m]
      | .impFrom none _ => []
  | .py none => []
  | .text _ => []

/-! ## Reference extractor: JS/TS (`scan_js_imports`, lines 19-20 and 54-58)

`IMPORT_RE = ^\s*import\s+.*?\s+from\s+['"](.+?)['"]\s*;?\s*$` (multiline) and
`REQUIRE_RE = require\(\s*['"](.+?)['"]\s*\)`, with `findall` semantics
(leftmost, non-overlapping; lazy `.+?`; `.` not matching a newline).
`IMPORT_RE` is realized line-by-line, which coincides with `re.M` behaviour
for statements not spread over several lines. -/

/-- Is `c` one of the two quote characters of the `['"]` class. -/
def quoteCh (c : Char) : Bool := c = '\'' || c = '"'

/-- Lazy capture for `(.+?)['"]\s*\)`: the shortest non-empty newline-free
chunk whose following character is a quote followed by `\s*\)`.  Returns the
capture and the text after the closing parenthesis. -/
def reqCapture : List Char → List Char → Option (List Char × List Char)
  | _, [] => none
  | acc, c :: rest =>
    if !acc.isEmpty && quoteCh c && ((rest.dropWhile isSpaceRe).headD 'x' = ')') then
      some (acc.reverse, (rest.dropWhile isSpaceRe).tail)
    else if c = '\n' then none
    else reqCapture (c :: acc) rest

/-- `REQUIRE_RE.findall`, scanning left to right; `fuel` only bounds the
recursion and is chosen so it never runs out. -/
def requireMatchesAux : Nat → List Char → List String
  | 0, _ => []
  | _, [] => []
  | fuel + 1, c :: tl =>
    if ("require(".data).isPrefixOf (c :: tl) then
      match ((c :: tl).drop 8).dropWhile isSpaceRe with
      | q :: body =>
        if quoteCh q then
          match reqCapture [] body with
          | some (cap, rest) => String.mk cap :: requireMatchesAux fuel rest
          | none => requireMatchesAux fuel tl
        else requireMatchesAux fuel tl
      | [] => requireMatchesAux fuel tl
    else requireMatchesAux fuel tl

/-- All `require("spec")` captures of the text. -/
def requireMatches (s : String) : List String :=
  requireMatchesAux (s.data.length + 1) s.data

/-- `\s*;?\s*$`: end-of-line tail after the closing quote. -/
def importTailOk (xs : List Char) : Bool :=
  let x1 := xs.dropWhile isSpaceRe
  let x2 := if x1.headD 'x' = ';' then x1.tail else x1
  (x2.dropWhile isSpaceRe).isEmpty

/-- Lazy capture for `(.+?)['"]` followed by `\s*;?\s*$`. -/
def importCapture : List Char → List Char → Option (List Char)
  | _, [] => none
  | acc, c :: rest =>
    if !acc.isEmpty && quoteCh c && importTailOk rest then some acc.reverse
    else importCapture (c :: acc) rest

/-- `\s+['"](.+?)...` after the literal `from`. -/
def importAfterFrom (xs : List Char) : Option (List Char) :=
  match xs with
  | c :: _ =>
    if isSpaceRe c then
      match xs.dropWhile isSpaceRe with
      | q :: body => if quoteCh q then importCapture [] body else none
      | [] => none
    else none
  | [] => none

/-- Lazy `.*?\s+from...`: the first `from` preceded by whitespace at which the
rest of the pattern matches.  `prevSpace` records whether the previous
character was whitespace. -/
def importFindFrom : List Char → Bool → Option (List Char)
  | [], _ => none
  | c :: rest, prevSpace =>
    if prevSpace && ("from".data).isPrefixOf (c :: rest) then
      match importAfterFrom ((c :: rest).drop 4) with
      | some cap => some cap
      | none => importFindFrom rest (isSpaceRe c)
    else importFindFrom rest (isSpaceRe c)

/-- One line against `IMPORT_RE`. -/
def importLineMatch (line : String) : Option String :=
  let l1 := line.data.dropWhile isSpaceRe
  if ("import".data).isPrefixOf l1 then
    match l1.drop 6 with
    | c :: rest => if isSpaceRe c then (importFindFrom rest false).map String.mk else none
    | [] => none
  else none

/-- `scan_js_imports`: ES-module matches then CommonJS `require` matches
(`out += IMPORT_RE.findall(text); out += REQUIRE_RE.findall(text)`). -/
def scan_js_imports (text : String) : List String :=
  (strLines text).filterMap importLineMatch ++ requireMatches text

/-! ## Reference extractor: Rust (`scan_rust_uses`, lines 21-22 and 60-63) -/

/-- The `[a-zA-Z0-9_]` class. -/
def identCh (c : Char) : Bool :=
  (97 ≤ c.toNat && c.toNat ≤ 122) || (65 ≤ c.toNat && c.toNat ≤ 90) ||
  (48 ≤ c.toNat && c.toNat ≤ 57) || c = '_'

/-- One line against `RUST_USE_RE = ^\s*use\s+([a-zA-Z0-9_:]+)`. -/
def rustUseLine (line : String) : Option String :=
  let l1 := line.data.dropWhile isSpaceRe
  if ("use".data).isPrefixOf l1 then
    match l1.drop 3 with
    | c :: rest =>
      if isSpaceRe c then
        let r := (c :: rest).dropWhile isSpaceRe
        let ident := r.takeWhile (fun ch => identCh ch || ch = ':')
        if ident.isEmpty then none else some (String.mk ident)
      else none
    | [] => none
  else none

/-- One line against `RUST_MOD_RE = ^\s*mod\s+([a-zA-Z0-9_]+)\s*;`. -/
def rustModLine (line : String) : Option String :=
  let l1 := line.data.dropWhile isSpaceRe
  if ("mod".data).isPrefixOf l1 then
    match l1.drop 3 with
    | c :: rest =>
      if isSpaceRe c then
        let r := (c :: rest).dropWhile isSpaceRe
        let ident := r.takeWhile identCh
        let after := (r.drop ident.length).dropWhile isSpaceRe
        if !ident.isEmpty && after.headD 'x' = ';' then some (String.mk ident) else none
      else none
    | [] => none
  else none

/-- `scan_rust_uses`: `(uses, mods)`. -/
def scan_rust_uses (text : String) : List String × List String :=
  ((strLines text).filterMap rustUseLine, (strLines text).filterMap rustModLine)

/-! ## Reference resolver (`_resolve_py_to_node`, lines 112-149) -/

/-- Count of leading `'.'` characters (lines 121-126). -/
def leadingDots (s : String) : Nat := (s.data.takeWhile (· = '.')).length

/-- Ascend `k` directory levels (`base = base.parent`, `Path('.').parent`
being `Path('.')`, i.e. `[]` stays `[]`). -/
def upDirs : Nat → List String → List String
  | 0, d => d
  | k + 1, d => upDirs k d.dropLast

/-- `(root / cand).with_suffix(".py")` as repo-relative components.  Candidate
components come from splitting a module string on `'.'`, so the final
component is dot-free and `with_suffix` appends `".py"`.  The `[]` case (a
module made only of dots) cannot arise from `scan_python_imports` — `ast`
strips the dots — and in Python would denote a path outside the repo; it is
left as `[]`, which matches no repo file. -/
def withPySuffix : List String → List String
  | [] => []
  | [p] => [p ++ ".py"]
  | p :: rest => p :: withPySuffix rest

/-- The candidate path computed by lines 119-139: relative module strings
anchor at the source file's directory raised `dots - 1` levels; absolute ones
split on dots (pathlib drops empty segments, hence the filter). -/
def pyCandidate (src_rel mod : String) : List String :=
  if strStarts "." mod then
    let dots := leadingDots mod
    let tail := String.mk (mod.data.drop dots)
    let src_dir := (pathParts src_rel).dropLast
    let base := upDirs (dots - 1) src_dir
    if tail ≠ "" then base ++ (splitStr '.' tail).filter (· ≠ "")
    else base
  else (splitStr '.' mod).filter (· ≠ "")

/-- Lines 141-149: try `<cand>.py`, then `<cand>/__init__.py`, against the
set `fs` of repo-relative paths that are regular files on disk. -/
def tryCandidate (fs : List String) (cand : List String) : Option String :=
  let py_file := joinParts (withPySuffix cand)
  let init_file := joinParts (cand ++ ["__init__.py"])
  if py_file ∈ fs then some py_file
  else if init_file ∈ fs then some init_file
  else none

/-- `_resolve_py_to_node` (the `root` argument enters only through `fs` and
the returned repo-relative strings). -/
def resolve_py_to_node (fs : List String) (src_rel mod : String) : Option String :=
  tryCandidate fs (pyCandidate src_rel mod)

/-- Modelled from the spec: §4.4's resolver contract, which adds "If relative
resolution yields nothing, fall back to treating it as if it were an absolute
reference" — a fallback `_resolve_py_to_node` does not contain.  Defined from
the spec's words for comparison with `resolve_py_to_node` (claim C5). -/
def resolve_py_to_node_spec (fs : List String) (src_rel mod : String) : Option String :=
  if strStarts "." mod then
    match tryCandidate fs (pyCandidate src_rel mod) with
    | some r => some r
    | none => tryCandidate fs ((splitStr '.' mod).filter (· ≠ ""))
  else tryCandidate fs ((splitStr '.' mod).filter (· ≠ ""))

/-! ## Node index and entrypoint detector -/

/-- Insertion-ordered `dict[str, Node]`: assignment keeps the original
position of an existing key (Python dict semantics). -/
def dictInsert (m : List (String × Node)) (k : String) (v : Node) : List (String × Node) :=
  if k ∈ m.map (fun p => p.1) then
    m.map (fun p => if p.1 = k then (k, v) else p)
  else m ++ [(k, v)]

/-- `nodes[rel]` (total lookup; the scanner only queries keys it inserted, so
the default is unreachable there). -/
def dictGet : List (String × Node) → String → Node
  | [], _ => ⟨"", "", .unknown⟩
  | (k, v) :: rest, key => if k = key then v else dictGet rest key

/-- `rel in nodes` (dict key membership). -/
def dictHasKey (m : List (String × Node)) (k : String) : Bool :=
  decide (k ∈ m.map (fun p => p.1))

/-- Sort key of `detect_entrypoints_from_nodes` / `build_roadmap`:
`(e.node, -e.confidence, e.reason)`. -/
def epKeys (e : EntryPoint) : List SKey := [.s e.node, .nd e.confidence, .s e.reason]

/-- The `for nid, n in nodes.items()` rule chain of
`detect_entrypoints_from_nodes` (lines 91-100). -/
def epRule (p : String × Node) : List EntryPoint :=
  if strEnds "__main__.py" p.2.path then
    [⟨p.1, "python __main__.py", 3⟩]
  else if strEnds "main.rs" p.2.path then
    [⟨p.1, "rust main.rs", 3⟩]
  else if p.2.path = "package.json" then
    [⟨p.1, "node package.json scripts", 2⟩]
  else if p.2.path = "pyproject.toml" then
    [⟨p.1, "python pyproject.toml (scripts/entrypoints likely)", 1⟩]
  else []

/-- The fixed-hint loop of lines 103-105. -/
def epHints (nodes : List (String × Node)) : List EntryPoint :=
  ["src/pybundle/cli.py", "src/pybundle/__init__.py"].filterMap
    (fun hint =>
      if dictHasKey nodes hint then
        some (⟨hint, "likely CLI/module entry", 1⟩ : EntryPoint)
      else none)

/-- `detect_entrypoints_from_nodes` (lines 87-110): path-shape rules over the
node index, two fixed hints, exact deduplication of the `(node, reason,
confidence)` triples (an `EntryPoint` is exactly that triple; the arbitrary
iteration order of the Python `set` is harmless because the final sort key
determines the triple), then the deterministic sort. -/
def detect_entrypoints_from_nodes (nodes : List (String × Node)) : List EntryPoint :=
  sortBy epKeys (nodes.flatMap epRule ++ epHints nodes).dedup

/-! ## Tree walker (`build_roadmap` lines 151-204)

The filesystem is passed as data: per include root, whether `d.exists()` and
`_is_venv_root(d)` hold, and the directories `os.walk` yields after the
in-place pruning of `dirnames` (exclude names, `.pybundle-venv`, venv-shaped
children — lines 171-176; that pruning only inspects the filesystem, so the
post-prune walk order is walker input).  Per file: its `_rel` path, `st_size`,
whether `stat` succeeds, the `_is_under_venv` verdict, and its content. -/

/-- A file as the walker sees it. -/
structure WFile where
  relPath : String
  size : Nat
  statOk : Bool
  underVenv : Bool
  content : FileContent
deriving DecidableEq, Repr

/-- An include root as the walker sees it. -/
structure WRoot where
  dirExists : Bool
  isVenvRoot : Bool
  dirs : List (List WFile)
deriving DecidableEq, Repr

/-- The `for fn in filenames` loop (lines 178-201): venv guards, the
`.pybundle-venv/` / `/site-packages/` string guards, `stat` failure, the
2 MB size ceiling (counted), append, and the `len(files) >= max_files`
break.  (The second `_is_under_venv` re-check of line 189 repeats the first
verbatim and is absorbed by it.) -/
def walkDir (maxFiles : Nat) : List WFile → List WFile × Nat → List WFile × Nat
  | [], acc => acc
  | f :: rest, (files, skipped) =>
    if f.underVenv then walkDir maxFiles rest (files, skipped)
    else if strStarts ".pybundle-venv/" f.relPath ∨
            strContains "/site-packages/" f.relPath then
      walkDir maxFiles rest (files, skipped)
    else if !f.statOk then walkDir maxFiles rest (files, skipped)
    else if 2000000 < f.size then walkDir maxFiles rest (files, skipped + 1)
    else
      let files' := files ++ [f]
      if maxFiles ≤ files'.length then (files', skipped)
      else walkDir maxFiles rest (files', skipped)

/-- The `for dirpath, ... in os.walk(d)` loop with its own
`len(files) >= max_files` break (lines 168-204). -/
def walkRootDirs (maxFiles : Nat) : List (List WFile) → List WFile × Nat → List WFile × Nat
  | [], acc => acc
  | d :: rest, acc =>
    let acc' := walkDir maxFiles d acc
    if maxFiles ≤ acc'.1.length then acc'
    else walkRootDirs maxFiles rest acc'

/-- The `for d in include_dirs` loop (lines 161-204).  Note: it carries NO
`max_files` check of its own — after one root's walk stops at the ceiling the
next root is still walked. -/
def collect_files (roots : List WRoot) (maxFiles : Nat) : List WFile × Nat :=
  roots.foldl
    (fun acc r =>
      if !r.dirExists then acc
      else if r.isVenvRoot then acc
      else walkRootDirs maxFiles r.dirs acc)
    ([], 0)

/-! ## Edge scan and graph assembly (`build_roadmap` lines 206-262) -/

/-- The node record created for a discovered file (line 209). -/
def nodeOf (f : WFile) : Node :=
  ⟨f.relPath, f.relPath, guess_lang f.relPath⟩

/-- Lines 206-209: `nodes[rel] = Node(...)` over the file list. -/
def buildNodes (files : List WFile) : List (String × Node) :=
  files.foldl (fun m f => dictInsert m f.relPath (nodeOf f)) []

/-- The edges contributed by one file (lines 212-235).  Python truthiness:
`if resolved and resolved in nodes` treats the empty string as false, hence
the `r ≠ ""` conjunct. -/
def edgesForFile (nodes : List (String × Node)) (fs : List String) (f : WFile) : List Edge :=
  if (dictGet nodes f.relPath).lang = .python then
    (scan_python_imports f.content).map (fun mod =>
      match resolve_py_to_node fs f.relPath mod with
      | some r =>
        if r ≠ "" ∧ dictHasKey nodes r then ⟨f.relPath, r, .imp, ""⟩
        else ⟨f.relPath, "py:" ++ mod, .imp, ""⟩
      | none => ⟨f.relPath, "py:" ++ mod, .imp, ""⟩)
  else if (dictGet nodes f.relPath).lang = .js ∨ (dictGet nodes f.relPath).lang = .ts then
    (scan_js_imports (getText f.content)).map
      (fun spec => ⟨f.relPath, "js:" ++ spec, .imp, ""⟩)
  else if (dictGet nodes f.relPath).lang = .rust then
    ((scan_rust_uses (getText f.content)).1.map (fun u => ⟨f.relPath, "rs:" ++ u, .use, ""⟩)) ++
    ((scan_rust_uses (getText f.content)).2.map (fun m => ⟨f.relPath, "rsmod:" ++ m, .mod, ""⟩))
  else []

/-- `stats.get(k, 0) + 1` on an insertion-ordered counter dict. -/
def bumpStat (m : List (String × Nat)) (k : String) : List (String × Nat) :=
  if k ∈ m.map (fun p => p.1) then
    m.map (fun p => if p.1 = k then (p.1, p.2 + 1) else p)
  else m ++ [(k, 1)]

/-- Lines 242-248: per-language node counters (in node insertion order), then
per-kind edge counters, then the oversize counter. -/
def buildStats (nodeVals : List Node) (edges : List Edge) (skipped : Nat) :
    List (String × Nat) :=
  let s1 := nodeVals.foldl (fun m n => bumpStat m ("nodes_" ++ langStr n.lang)) []
  let s2 := edges.foldl (fun m e => bumpStat m ("edges_" ++ typeStr e.type)) s1
  s2 ++ [("skipped_big_files", skipped)]

/-- Sort key for nodes (line 251: `key=lambda x: x.id`). -/
def nodeKeys (n : Node) : List SKey := [.s n.id]

/-- Sort key for edges (line 252: `key=lambda e: (e.src, e.dst, e.type, e.note)`;
`e.type` is compared as its literal string). -/
def edgeKeys (e : Edge) : List SKey := [.s e.src, .s e.dst, .s (typeStr e.type), .s e.note]

/-- Lines 206-262: assemble the graph from the walker's output.  `fs` is the
on-disk file set consulted by the resolver. -/
def assemble_graph (rootStr : String) (fs : List String) (files : List WFile)
    (skipped : Nat) : RoadmapGraph :=
  { version := 1
    root := rootStr
    nodes := sortBy nodeKeys ((buildNodes files).map (fun p => p.2))
    edges := sortBy edgeKeys (files.flatMap (edgesForFile (buildNodes files) fs))
    entrypoints := sortBy epKeys (detect_entrypoints_from_nodes (buildNodes files))
    stats := buildStats ((buildNodes files).map (fun p => p.2))
      (files.flatMap (edgesForFile (buildNodes files) fs)) skipped }

/-- `build_roadmap` (lines 151-262). -/
def build_roadmap (rootStr : String) (fs : List String) (roots : List WRoot)
    (maxFiles : Nat) : RoadmapGraph :=
  let collected := collect_files roots maxFiles
  assemble_graph rootStr fs collected.1 collected.2

/-! ## Bounded renderer (`RoadmapStep._render_mermaid_bfs`,
`steps/roadmap.py` lines 126-158) -/

/-- `adj.setdefault(e.src, []).append(e.dst)`: insertion-ordered grouping. -/
def adjInsert (a : List (String × List String)) (src dst : String) :
    List (String × List String) :=
  match a with
  | [] => [(src, [dst])]
  | (s, ds) :: rest =>
    if s = src then (s, ds ++ [dst]) :: rest else (s, ds) :: adjInsert rest src dst

/-- `adj.get(node, [])`. -/
def adjGet : List (String × List String) → String → List String
  | [], _ => []
  | (s, ds) :: rest, n => if s = n then ds else adjGet rest n

/-- Line 131: group the edge list by source. -/
def buildAdj (edges : List Edge) : List (String × List String) :=
  edges.foldl (fun a e => adjInsert a e.src e.dst) []

/-- The traversal state: the queue of `(node, depth)` pairs, the visited-edge
set and the emitted list (updated in lockstep — `shown` holds the emitted
`(source, destination)` pairs, rendered to Mermaid lines only at the end),
and the visited-node set.  The two Python sets are modelled as
insertion-ordered lists; only membership is consulted. -/
structure BfsState where
  q : List (String × Nat)
  seen_edges : List (String × String)
  shown : List (String × String)
  seen_nodes : List String
deriving DecidableEq, Repr

/-- The `for dst in adj.get(node, [])` body (lines 146-156): skip a seen
edge, record and emit a new one, enqueue an unseen destination at
`depth + 1`, and break once the edge cap is reached. -/
def bfsExpand (maxEdges : Nat) (node : String) (depth : Nat) :
    List String → BfsState → BfsState
  | [], st => st
  | dst :: rest, st =>
    if (node, dst) ∈ st.seen_edges then bfsExpand maxEdges node depth rest st
    else
      let st1 : BfsState :=
        { st with
          seen_edges := st.seen_edges ++ [(node, dst)]
          shown := st.shown ++ [(node, dst)] }
      let st2 : BfsState :=
        if dst ∈ st1.seen_nodes then st1
        else
          { st1 with
            seen_nodes := st1.seen_nodes ++ [dst]
            q := st1.q ++ [(dst, depth + 1)] }
      if maxEdges ≤ st2.shown.length then st2
      else bfsExpand maxEdges node depth rest st2

/-- The loop guard `while q and len(shown) < max_edges` (negated). -/
def bfsDone (maxEdges : Nat) (st : BfsState) : Bool :=
  st.q.isEmpty || maxEdges ≤ st.shown.length

/-- One iteration of the while loop (lines 142-156): pop, skip nodes at or
beyond the depth cap, otherwise expand. -/
def bfsStep (adj : List (String × List String)) (maxDepth maxEdges : Nat)
    (st : BfsState) : BfsState :=
  match st.q with
  | [] => st
  | (node, depth) :: rest =>
    let st' : BfsState := { st with q := rest }
    if maxDepth ≤ depth then st'
    else bfsExpand maxEdges node depth (adjGet adj node) st'

/-- Iterate `bfsStep` until `bfsDone`; `fuel` only bounds the recursion (the
Python loop has no such bound — `bfs_terminates` below shows `bfsFuel`
iterations always reach `bfsDone`, so with that fuel this IS the loop). -/
def bfsRun (adj : List (String × List String)) (maxDepth maxEdges : Nat) :
    Nat → BfsState → BfsState
  | 0, st => st
  | fuel + 1, st =>
    if bfsDone maxEdges st then st
    else bfsRun adj maxDepth maxEdges fuel (bfsStep adj maxDepth maxEdges st)

/-- An upper bound on the number of loop iterations: initial queue length
plus the number of distinct destinations in the adjacency. -/
def bfsFuel (adj : List (String × List String)) (entry : List String) : Nat :=
  entry.length + ((adj.flatMap (fun p => p.2)).dedup).length

/-- The initial state (lines 137-140): queue and visited-node set seeded with
every entrypoint node. -/
def bfsInit (entry : List String) : BfsState :=
  ⟨entry.map (fun n => (n, 0)), [], [], entry⟩

/-- The final traversal state of `_render_mermaid_bfs` for a graph. -/
def mermaidBfsState (g : RoadmapGraph) (maxDepth maxEdges : Nat) : BfsState :=
  let adj := buildAdj g.edges
  let entry := g.entrypoints.map (fun ep => ep.node)
  bfsRun adj maxDepth maxEdges (bfsFuel adj entry) (bfsInit entry)

/-- `'  "{node}" --> "{dst}"'`. -/
def mkLine (p : String × String) : String :=
  "  \"" ++ p.1 ++ "\" --> \"" ++ p.2 ++ "\""

/-- `_render_mermaid_bfs` (lines 126-158), including the two fallback lines. -/
def render_mermaid_bfs (g : RoadmapGraph) (maxDepth maxEdges : Nat) : List String :=
  let entry := g.entrypoints.map (fun ep => ep.node)
  if entry.isEmpty then ["  A[\"(no entrypoints)\"]"]
  else
    let shown := (mermaidBfsState g maxDepth maxEdges).shown.map mkLine
    if shown.isEmpty then ["  A[\"(no edges rendered)\"]"] else shown

/-! ## Walker ceiling bounds (for claim C3) -/

theorem walkDir_len_le (maxF : Nat) :
    ∀ (d : List WFile) (files : List WFile) (skipped : Nat),
      (walkDir maxF d (files, skipped)).1.length ≤ max maxF (files.length + 1) := by
  intro d
  induction d with
  | nil => intro files skipped; simp only [walkDir]; omega
  | cons f rest ih =>
    intro files skipped
    simp only [walkDir]
    split_ifs with h1 h2 h3 h4 h5
    · exact le_trans (ih files skipped) (by omega)
    · exact le_trans (ih files skipped) (by omega)
    · exact le_trans (ih files skipped) (by omega)
    · exact le_trans (ih files (skipped + 1)) (by omega)
    · simp only [List.length_append, List.length_cons, List.length_nil]
      omega
    · have := ih (files ++ [f]) skipped
      simp only [List.length_append, List.length_cons, List.length_nil] at this h5 ⊢
      omega

theorem walkRootDirs_len_le (maxF : Nat) :
    ∀ (dirs : List (List WFile)) (files : List WFile) (skipped : Nat),
      (walkRootDirs maxF dirs (files, skipped)).1.length ≤ max maxF (files.length + 1) := by
  intro dirs
  induction dirs with
  | nil => intro files skipped; simp only [walkRootDirs]; omega
  | cons d rest ih =>
    intro files skipped
    simp only [walkRootDirs]
    rcases hwd : walkDir maxF d (files, skipped) with ⟨files1, sk1⟩
    have h1 : files1.length ≤ max maxF (files.length + 1) := by
      have := walkDir_len_le maxF d files skipped
      rw [hwd] at this; exact this
    split_ifs with hbrk
    · simpa using h1
    · have h2 := ih files1 sk1
      simp only at h2 hbrk ⊢
      omega

theorem collect_files_aux_len_le (maxF : Nat) :
    ∀ (roots : List WRoot) (acc : List WFile × Nat),
      (roots.foldl
        (fun acc r =>
          if !r.dirExists then acc
          else if r.isVenvRoot then acc
          else walkRootDirs maxF r.dirs acc) acc).1.length ≤
      max maxF acc.1.length + roots.length := by
  intro roots
  induction roots with
  | nil => intro acc; simp only [List.foldl_nil, List.length_nil]; omega
  | cons r rest ih =>
    intro acc
    simp only [List.foldl_cons, List.length_cons]
    split_ifs with h1 h2
    · have := ih acc; omega
    · have := ih acc; omega
    · rcases hwd : walkRootDirs maxF r.dirs acc with ⟨files1, sk1⟩
      have hb : files1.length ≤ max maxF (acc.1.length + 1) := by
        rcases acc with ⟨files0, sk0⟩
        have := walkRootDirs_len_le maxF r.dirs files0 sk0
        rw [hwd] at this; exact this
      have h2 := ih (files1, sk1)
      simp only at h2 ⊢
      omega

/-! ## Claim C1 -/

/-- File A of the spec's two-file relative-import scenario: `pkg/sub/a.py`
containing `from ..b import x`, which CPython parses to
`ImportFrom(module="b", level=2)`. -/
def c1FileA : WFile := ⟨"pkg/sub/a.py", 10, true, false, .py (some [.impFrom (some "b") 2])⟩

/-- File B of the scenario: `pkg/b.py`. -/
def c1FileB : WFile := ⟨"pkg/b.py", 0, true, false, .py (some [])⟩

/-- The include root holding both files. -/
def c1Root : WRoot := ⟨true, false, [[c1FileA, c1FileB]]⟩

/-- C1 (code bug, evaluation at the failing input): in the two-file package
where `pkg/sub/a.py` imports `pkg/b.py` via `from ..b import x`, the scan
emits ONE SYNTHETIC edge `py:b` and no resolved edge A→B, because
`scan_python_imports` reads only `ImportFrom.module` and never `level`, so the
leading dots are lost and the resolver receives the absolute-looking `"b"`.
B's node is present, and the last conjunct shows the resolver's own relative
branch — dead code under this caller — would have resolved the dotted form,
confirming that dropping `level` is the slip. -/
theorem c1_relative_import_dropped :
    (build_roadmap "repo" ["pkg/sub/a.py", "pkg/b.py"] [c1Root] 20000).edges =
      [⟨"pkg/sub/a.py", "py:b", .imp, ""⟩] ∧
    "pkg/b.py" ∈ (build_roadmap "repo" ["pkg/sub/a.py", "pkg/b.py"] [c1Root] 20000).nodes.map
      (fun n => n.id) ∧
    scan_python_imports c1FileA.content = ["b"] ∧
    resolve_py_to_node ["pkg/sub/a.py", "pkg/b.py"] "pkg/sub/a.py" "..b" = some "pkg/b.py" :=
  ⟨by decide, by decide, by decide, by decide⟩

/-! ## Claim C4 -/

/-- A nonexistent include root (`d.exists()` is false). -/
def c4Root : WRoot := ⟨false, false, [[⟨"a.py", 0, true, false, .py (some [])⟩]]⟩

/-- C4 counterexample: for a scan whose root does not exist, `build_roadmap`
RETURNS an ordinary empty graph — the claim's "the scan fails and this failure
is propagated to the caller; no partial graph value is returned" is false.
The translated code path contains no raise: `if not d.exists(): continue`
skips every include root and the empty file list is assembled normally. -/
theorem c4_counterexample :
    build_roadmap "/missing" [] [c4Root] 20000 =
      ⟨1, "/missing", [], [], [], [("skipped_big_files", 0)]⟩ := by decide

/-- Skip-only roots leave the walker's accumulator untouched. -/
theorem collect_files_skip (maxFiles : Nat) :
    ∀ (roots : List WRoot) (acc : List WFile × Nat),
      (∀ r ∈ roots, r.dirExists = false) →
      roots.foldl
        (fun acc r =>
          if !r.dirExists then acc
          else if r.isVenvRoot then acc
          else walkRootDirs maxFiles r.dirs acc) acc = acc := by
  intro roots
  induction roots with
  | nil => intro acc _; rfl
  | cons r rest ih =>
    intro acc h
    have hr := h r (List.mem_cons_self r rest)
    simp only [List.foldl_cons, hr]
    exact ih acc (fun x hx => h x (List.mem_cons.mpr (Or.inr hx)))

/-- C4 (amended): a scan whose root path does not exist does NOT fail — every
include-root candidate is skipped and an ordinary empty graph (no nodes, no
edges, no entrypoints, a zero oversize counter) is returned to the caller. -/
theorem c4_missing_root_returns_empty_graph (rootStr : String) (fs : List String)
    (roots : List WRoot) (maxFiles : Nat) (h : ∀ r ∈ roots, r.dirExists = false) :
    build_roadmap rootStr fs roots maxFiles =
      ⟨1, rootStr, [], [], [], [("skipped_big_files", 0)]⟩ := by
  unfold build_roadmap collect_files
  rw [collect_files_skip maxFiles roots ([], 0) h]
  rfl

/-- Witness for `c4_missing_root_returns_empty_graph`. -/
theorem c4_missing_root_returns_empty_graph_witness :
    build_roadmap "/gone" ["x.py"] [⟨false, false, []⟩] 5 =
      ⟨1, "/gone", [], [], [], [("skipped_big_files", 0)]⟩ :=
  c4_missing_root_returns_empty_graph "/gone" ["x.py"] [⟨false, false, []⟩] 5
    (by intro r hr; simp at hr; rw [hr])

/-! ## Claim C5 -/

/-- C5 counterexample: for the relative reference `".b"` written from
`pkg/a.py` in a repo holding `b.py`, relative resolution yields nothing and
`_resolve_py_to_node` returns `None` — while the spec's described fallback
(re-resolving the reference as absolute) would find `b.py`.  The claimed
fallback does not exist in the code. -/
theorem c5_counterexample :
    resolve_py_to_node ["b.py", "pkg/a.py"] "pkg/a.py" ".b" = none ∧
    resolve_py_to_node_spec ["b.py", "pkg/a.py"] "pkg/a.py" ".b" = some "b.py" := by decide

/-- C5 (amended): a relative module reference is resolved against its relative
candidate only; when that candidate matches no repo file the resolver returns
`None` (and the caller then treats the reference as external) — no absolute
fallback is attempted. -/
theorem c5_no_absolute_fallback (fs : List String) (src_rel mod : String)
    (hrel : strStarts "." mod = true)
    (hfail : tryCandidate fs (pyCandidate src_rel mod) = none) :
    resolve_py_to_node fs src_rel mod = none := hfail

/-- Witness for `c5_no_absolute_fallback`. -/
theorem c5_no_absolute_fallback_witness :
    resolve_py_to_node ["util.py", "pkg/m.py"] "pkg/m.py" ".util" = none :=
  c5_no_absolute_fallback ["util.py", "pkg/m.py"] "pkg/m.py" ".util" (by decide) (by decide)

/-! ## Claim C3 -/

/-- Two include roots with one clean file each. -/
def c3RootA : WRoot := ⟨true, false, [[⟨"r1/a.py", 0, true, false, .py (some [])⟩]]⟩

/-- Second include root. -/
def c3RootB : WRoot := ⟨true, false, [[⟨"r2/b.py", 0, true, false, .py (some [])⟩]]⟩

/-- C3 counterexample: with `max_files = 1` and two include roots the walker
collects 2 candidate files (and the graph gets 2 nodes): reaching the ceiling
stops only the walk of the current root — the include-root loop carries no
ceiling check — so the claimed `≤ max_files` bound "for any number of include
roots" is false. -/
theorem c3_counterexample :
    ¬ ((collect_files [c3RootA, c3RootB] 1).1.length ≤ 1) ∧
    ¬ ((build_roadmap "r" [] [c3RootA, c3RootB] 1).nodes.length ≤ 1) := by decide

/-- C3 (amended): the ceiling stops the walk of the current include root, and
each subsequent root can contribute at most one further file before its own
walk stops; the candidate count is therefore bounded by `max_files` plus the
number of include roots, and by `max_files` itself for a single include root
with a positive ceiling. -/
theorem c3_ceiling_bound (roots : List WRoot) (maxFiles : Nat) :
    (collect_files roots maxFiles).1.length ≤ maxFiles + roots.length ∧
    (∀ r : WRoot, 1 ≤ maxFiles → (collect_files [r] maxFiles).1.length ≤ maxFiles) := by
  constructor
  · have h := collect_files_aux_len_le maxFiles roots ([], 0)
    unfold collect_files
    simp only [List.length_nil, Nat.max_zero] at h
    omega
  · intro r hpos
    unfold collect_files
    simp only [List.foldl_cons, List.foldl_nil]
    split_ifs with h1 h2
    · simp
    · simp
    · have h := walkRootDirs_len_le maxFiles r.dirs [] 0
      simp only [List.length_nil] at h
      omega

/-- Witness for `c3_ceiling_bound`. -/
theorem c3_ceiling_bound_witness :
    (collect_files [c3RootA, c3RootB] 1).1.length ≤ 1 + 2 ∧
    (collect_files [c3RootA] 1).1.length ≤ 1 :=
  ⟨(c3_ceiling_bound [c3RootA, c3RootB] 1).1,
   (c3_ceiling_bound [c3RootA, c3RootB] 1).2 c3RootA (by decide)⟩

/-! ## Claim C7 -/

/-- Every triple produced by the rule chain carries confidence 1, 2 or 3. -/
theorem epRule_confidence (p : String × Node) :
    ∀ e ∈ epRule p, e.confidence = 1 ∨ e.confidence = 2 ∨ e.confidence = 3 := by
  intro e he
  unfold epRule at he
  split_ifs at he
  · rw [List.mem_singleton.mp he]; simp
  · rw [List.mem_singleton.mp he]; simp
  · rw [List.mem_singleton.mp he]; simp
  · rw [List.mem_singleton.mp he]; simp
  · exact absurd he (List.not_mem_nil e)

/-- Every hint triple carries confidence 1. -/
theorem epHints_confidence (nodes : List (String × Node)) :
    ∀ e ∈ epHints nodes, e.confidence = 1 := by
  intro e he
  unfold epHints at he
  rcases List.mem_filterMap.mp he with ⟨hint, _, heq⟩
  by_cases h : dictHasKey nodes hint = true
  · rw [if_pos h] at heq
    injection heq with h2
    rw [← h2]
  · rw [if_neg h] at heq
    exact absurd heq (by simp)

/-- C7 (confirmed): for every node set, the final entrypoint list holds no
duplicate `(node, reason, confidence)` triple (an `EntryPoint` is exactly that
triple), is sorted by node ascending, then confidence descending, then reason
ascending (the order `keyLe epKeys`), and every confidence lies in
`{1, 2, 3}`. -/
theorem c7_entrypoints_dedup_sorted_confidence (nodes : List (String × Node)) :
    (detect_entrypoints_from_nodes nodes).Nodup ∧
    (detect_entrypoints_from_nodes nodes).Sorted (keyLe epKeys) ∧
    ∀ e ∈ detect_entrypoints_from_nodes nodes,
      e.confidence = 1 ∨ e.confidence = 2 ∨ e.confidence = 3 := by
  refine ⟨?_, ?_, ?_⟩
  · unfold detect_entrypoints_from_nodes
    exact ((sortBy_perm epKeys _).nodup_iff).mpr (List.nodup_dedup _)
  · exact sortBy_sorted epKeys _
  · intro e he
    unfold detect_entrypoints_from_nodes at he
    have he2 := List.mem_dedup.mp ((sortBy_mem epKeys).mp he)
    rcases List.mem_append.mp he2 with h | h
    · rcases List.mem_flatMap.mp h with ⟨p, _, hp⟩
      exact epRule_confidence p e hp
    · exact Or.inl (epHints_confidence nodes e h)

/-- Node set exercising a rule and a hint, for the C7 witness. -/
def c7Nodes : List (String × Node) :=
  [("app/__main__.py", ⟨"app/__main__.py", "app/__main__.py", .python⟩),
   ("src/pybundle/cli.py", ⟨"src/pybundle/cli.py", "src/pybundle/cli.py", .python⟩)]

/-- Witness for `c7_entrypoints_dedup_sorted_confidence`. -/
theorem c7_entrypoints_witness :
    (detect_entrypoints_from_nodes c7Nodes).Nodup ∧
    (detect_entrypoints_from_nodes c7Nodes).Sorted (keyLe epKeys) ∧
    ((⟨"app/__main__.py", "python __main__.py", 3⟩ : EntryPoint).confidence = 1 ∨
     (⟨"app/__main__.py", "python __main__.py", 3⟩ : EntryPoint).confidence = 2 ∨
     (⟨"app/__main__.py", "python __main__.py", 3⟩ : EntryPoint).confidence = 3) :=
  ⟨(c7_entrypoints_dedup_sorted_confidence c7Nodes).1,
   (c7_entrypoints_dedup_sorted_confidence c7Nodes).2.1,
   (c7_entrypoints_dedup_sorted_confidence c7Nodes).2.2
     ⟨"app/__main__.py", "python __main__.py", 3⟩ (by decide)⟩

/-! ## Node-index lemmas (used by claims C6, C10, C2) -/

/-- Key list after a dict insertion. -/
theorem dictInsert_keys (m : List (String × Node)) (k : String) (v : Node) :
    (dictInsert m k v).map (fun p => p.1) =
      if k ∈ m.map (fun p => p.1) then m.map (fun p => p.1)
      else m.map (fun p => p.1) ++ [k] := by
  unfold dictInsert
  split_ifs with h
  · rw [List.map_map]
    apply List.map_congr_left
    intro p hp
    by_cases hk : p.1 = k
    · simp [hk]
    · simp [hk]
  · simp

/-- Every pair of the node index maps a path to its canonical node record
(`Node(id=rel, path=rel, lang=guess_lang(rel))`), regardless of duplicates. -/
theorem buildNodes_canonical :
    ∀ (files : List WFile) (m : List (String × Node)),
      (∀ p ∈ m, p.2 = ⟨p.1, p.1, guess_lang p.1⟩) →
      ∀ p ∈ files.foldl (fun m f => dictInsert m f.relPath (nodeOf f)) m,
        p.2 = ⟨p.1, p.1, guess_lang p.1⟩ := by
  intro files
  induction files with
  | nil => intro m hm p hp; exact hm p hp
  | cons f rest ih =>
    intro m hm p hp
    refine ih (dictInsert m f.relPath (nodeOf f)) ?_ p hp
    intro q hq
    unfold dictInsert at hq
    split_ifs at hq with hk
    · rcases List.mem_map.mp hq with ⟨q0, hq0, hqe⟩
      by_cases h : q0.1 = f.relPath
      · rw [if_pos h] at hqe
        rw [← hqe]; rfl
      · rw [if_neg h] at hqe
        rw [← hqe]; exact hm q0 hq0
    · rcases List.mem_append.mp hq with h | h
      · exact hm q h
      · simp only [List.mem_singleton] at h
        rw [h]; rfl

/-- Lookup of a present key in a canonical index returns the canonical node. -/
theorem dictGet_canonical :
    ∀ (m : List (String × Node)) (k : String),
      (∀ p ∈ m, p.2 = ⟨p.1, p.1, guess_lang p.1⟩) →
      k ∈ m.map (fun p => p.1) →
      dictGet m k = ⟨k, k, guess_lang k⟩ := by
  intro m
  induction m with
  | nil => intro k _ hk; simp at hk
  | cons p rest ih =>
    intro k hm hk
    rcases p with ⟨k', v'⟩
    unfold dictGet
    by_cases h : k' = k
    · rw [if_pos h]
      have hv := hm (k', v') (List.mem_cons_self _ _)
      simp only at hv
      rw [hv, h]
    · rw [if_neg h]
      apply ih k (fun q hq => hm q (List.mem_cons.mpr (Or.inr hq)))
      simp only [List.map_cons, List.mem_cons] at hk
      rcases hk with hk | hk
      · exact absurd hk.symm h
      · exact hk

/-- Growing the index never loses a key. -/
theorem buildNodes_keys_mono :
    ∀ (files : List WFile) (m : List (String × Node)) (k : String),
      k ∈ m.map (fun p => p.1) →
      k ∈ (files.foldl (fun m f => dictInsert m f.relPath (nodeOf f)) m).map (fun p => p.1) := by
  intro files
  induction files with
  | nil => intro m k hk; exact hk
  | cons f rest ih =>
    intro m k hk
    apply ih
    rw [dictInsert_keys]
    split_ifs with h
    · exact hk
    · exact List.mem_append.mpr (Or.inl hk)

/-- Every walked file's path is a key of the node index. -/
theorem buildNodes_mem_keys :
    ∀ (files : List WFile) (m : List (String × Node)) (f : WFile), f ∈ files →
      f.relPath ∈
        (files.foldl (fun m f => dictInsert m f.relPath (nodeOf f)) m).map (fun p => p.1) := by
  intro files
  induction files with
  | nil => intro m f hf; exact absurd hf (List.not_mem_nil f)
  | cons g rest ih =>
    intro m f hf
    simp only [List.foldl_cons]
    rcases List.mem_cons.mp hf with h | h
    · subst h
      apply buildNodes_keys_mono
      rw [dictInsert_keys]
      split_ifs with hk
      · exact hk
      · exact List.mem_append.mpr (Or.inr (List.mem_singleton.mpr rfl))
    · exact ih (dictInsert m g.relPath (nodeOf g)) f h

/-- The language consulted by the edge scan for a walked file is
`guess_lang` of its path. -/
theorem dictGet_buildNodes_lang (files : List WFile) (f : WFile) (hf : f ∈ files) :
    dictGet (buildNodes files) f.relPath = ⟨f.relPath, f.relPath, guess_lang f.relPath⟩ := by
  apply dictGet_canonical
  · exact buildNodes_canonical files [] (by intro p hp; exact absurd hp (List.not_mem_nil p))
  · exact buildNodes_mem_keys files [] f hf

/-! ## Claim C10 -/

/-- Every edge the scan creates is an `import`, `use` or `mod` edge — the
`require` kind of the `EdgeType` enumeration is never produced. -/
theorem edgesForFile_type (nodes : List (String × Node)) (fs : List String)
    (f : WFile) (e : Edge) (he : e ∈ edgesForFile nodes fs f) :
    e.type = .imp ∨ e.type = .use ∨ e.type = .mod := by
  unfold edgesForFile at he
  split_ifs at he with h1 h2 h3
  · rcases List.mem_map.mp he with ⟨mod, _, heq⟩
    rcases hr : resolve_py_to_node fs f.relPath mod with _ | r
    · rw [hr] at heq; rw [← heq]; left; rfl
    · rw [hr] at heq
      dsimp only at heq
      split_ifs at heq
      · rw [← heq]; left; rfl
      · rw [← heq]; left; rfl
  · rcases List.mem_map.mp he with ⟨sp, _, heq⟩
    rw [← heq]; left; rfl
  · rcases List.mem_append.mp he with h | h
    · rcases List.mem_map.mp h with ⟨u, _, heq⟩
      rw [← heq]; right; left; rfl
    · rcases List.mem_map.mp h with ⟨mo, _, heq⟩
      rw [← heq]; right; right; rfl
  · exact absurd he (List.not_mem_nil e)

/-- For a walked js/ts file the edge scan is exactly the js scanner's map. -/
theorem edgesForFile_js (files : List WFile) (fs : List String) (f : WFile)
    (hf : f ∈ files) (hjs : guess_lang f.relPath = .js ∨ guess_lang f.relPath = .ts) :
    edgesForFile (buildNodes files) fs f =
      (scan_js_imports (getText f.content)).map
        (fun spec => ⟨f.relPath, "js:" ++ spec, .imp, ""⟩) := by
  unfold edgesForFile
  rw [dictGet_buildNodes_lang files f hf]
  have hnp : ¬ (guess_lang f.relPath = .python) := by
    rcases hjs with h | h <;> (rw [h]; intro hc; exact absurd hc (by simp))
  rw [if_neg hnp, if_pos hjs]

/-- C10 (confirmed): no scan ever emits an edge of kind `require`; every
reference extracted from a js/ts file by the CommonJS `require("spec")`
pattern yields an edge of kind `import` (identical to ES-module matches),
destination `js:<spec>`. -/
theorem c10_require_kind_never_emitted (rootStr : String) (fs : List String)
    (roots : List WRoot) (maxFiles : Nat) :
    (∀ e ∈ (build_roadmap rootStr fs roots maxFiles).edges, e.type ≠ EdgeType.require) ∧
    (∀ f ∈ (collect_files roots maxFiles).1,
      (guess_lang f.relPath = .js ∨ guess_lang f.relPath = .ts) →
      ∀ sp ∈ requireMatches (getText f.content),
        (⟨f.relPath, "js:" ++ sp, .imp, ""⟩ : Edge) ∈
          (build_roadmap rootStr fs roots maxFiles).edges) := by
  constructor
  · intro e he
    have he2 := (sortBy_mem edgeKeys).mp he
    rcases List.mem_flatMap.mp he2 with ⟨f, hf, hef⟩
    rcases edgesForFile_type _ fs f e hef with h | h | h <;>
      (rw [h]; intro hc; exact absurd hc (by simp))
  · intro f hf hjs sp hsp
    have hedge : (⟨f.relPath, "js:" ++ sp, .imp, ""⟩ : Edge) ∈
        edgesForFile (buildNodes (collect_files roots maxFiles).1) fs f := by
      rw [edgesForFile_js _ fs f hf hjs]
      refine List.mem_map.mpr ⟨sp, ?_, rfl⟩
      exact List.mem_append.mpr (Or.inr hsp)
    exact (sortBy_mem edgeKeys).mpr (List.mem_flatMap.mpr ⟨f, hf, hedge⟩)

/-- A js file whose content holds one CommonJS require call. -/
def c10File : WFile := ⟨"a.js", 26, true, false, .text "const x = require(\"lib\");"⟩

/-- Its include root. -/
def c10Root : WRoot := ⟨true, false, [[c10File]]⟩

/-- Witness for `c10_require_kind_never_emitted`. -/
theorem c10_require_kind_witness :
    (⟨"a.js", "js:lib", .imp, ""⟩ : Edge).type ≠ EdgeType.require ∧
    (⟨"a.js", "js:lib", .imp, ""⟩ : Edge) ∈ (build_roadmap "r" [] [c10Root] 20000).edges :=
  ⟨(c10_require_kind_never_emitted "r" [] [c10Root] 20000).1 _ (by decide),
   (c10_require_kind_never_emitted "r" [] [c10Root] 20000).2 c10File (by decide)
     (by decide) "lib" (by decide)⟩

/-! ## Claim C6 -/

/-- The language-tag prefixes of synthetic destinations (`py:`, `js:`,
`rs:`, `rsmod:`). -/
def syntheticTags : List String := ["py:", "js:", "rs:", "rsmod:"]

/-- A resolved key of the node index appears among the sorted graph's node
ids. -/
theorem hasKey_mem_sorted_ids (files : List WFile) (r : String)
    (h : dictHasKey (buildNodes files) r = true) :
    r ∈ (sortBy nodeKeys ((buildNodes files).map (fun p => p.2))).map (fun n => n.id) := by
  have hmem : r ∈ (buildNodes files).map (fun p => p.1) := by
    simpa [dictHasKey] using h
  rcases List.mem_map.mp hmem with ⟨p, hp, hpr⟩
  have hcan := buildNodes_canonical files []
    (by intro q hq; exact absurd hq (List.not_mem_nil q)) p hp
  refine List.mem_map.mpr ⟨p.2, ?_, ?_⟩
  · exact (sortBy_mem nodeKeys).mpr (List.mem_map.mpr ⟨p, hp, rfl⟩)
  · rw [hcan]; exact hpr

/-- A Python file importing `os` (which resolves to no repo file). -/
def c6FilePy : WFile := ⟨"a.py", 9, true, false, .py (some [.imp ["os"]])⟩

/-- A scanned file literally named `py:os` (a legal Unix filename). -/
def c6FileWeird : WFile := ⟨"py:os", 0, true, false, .text ""⟩

/-- Root holding both. -/
def c6Root : WRoot := ⟨true, false, [[c6FilePy, c6FileWeird]]⟩

/-- C6 counterexample: the reference `os` matches no repo file, so the scan
emits the synthetic destination `py:os` — but a scanned file literally named
`py:os` gives that very string as a REAL node id, so the synthetic id appears
in the node list and collides with a real node id, refuting the claim's
"never appears / never collides". -/
theorem c6_counterexample :
    (⟨"a.py", "py:os", .imp, ""⟩ : Edge) ∈
      (build_roadmap "r" ["a.py", "py:os"] [c6Root] 20000).edges ∧
    resolve_py_to_node ["a.py", "py:os"] "a.py" "os" = none ∧
    "py:os" ∈ (build_roadmap "r" ["a.py", "py:os"] [c6Root] 20000).nodes.map
      (fun n => n.id) := by
  refine ⟨by decide, by decide, by decide⟩

/-- C6 (amended): the scan never raises on an unresolved reference (the
embedding is a total function); every emitted edge either points at an
existing node id or carries a language-tag-prefixed synthetic destination
`<tag>:<raw>`; and PROVIDED no scanned path itself starts with one of the
language-tag prefixes, a tag-prefixed destination never equals a real node
id.  Nothing in the code enforces that proviso (see `c6_counterexample`). -/
theorem c6_synthetic_destinations (rootStr : String) (fs : List String)
    (roots : List WRoot) (maxFiles : Nat) :
    (∀ e ∈ (build_roadmap rootStr fs roots maxFiles).edges,
      e.dst ∈ (build_roadmap rootStr fs roots maxFiles).nodes.map (fun n => n.id) ∨
      ∃ t ∈ syntheticTags, ∃ raw, e.dst = t ++ raw) ∧
    ((∀ n ∈ (build_roadmap rootStr fs roots maxFiles).nodes,
        ∀ t ∈ syntheticTags, strStarts t n.id = false) →
      ∀ e ∈ (build_roadmap rootStr fs roots maxFiles).edges,
        ∀ t ∈ syntheticTags, strStarts t e.dst = true →
          e.dst ∉ (build_roadmap rootStr fs roots maxFiles).nodes.map (fun n => n.id)) := by
  constructor
  · intro e he
    have he2 := (sortBy_mem edgeKeys).mp he
    rcases List.mem_flatMap.mp he2 with ⟨f, hf, hef⟩
    unfold edgesForFile at hef
    split_ifs at hef with h1 h2 h3
    · rcases List.mem_map.mp hef with ⟨mod, _, heq⟩
      rcases hr : resolve_py_to_node fs f.relPath mod with _ | r
      · rw [hr] at heq
        right; exact ⟨"py:", by simp [syntheticTags], mod, by rw [← heq]⟩
      · rw [hr] at heq
        dsimp only at heq
        split_ifs at heq with hc
        · left
          rw [← heq]
          exact hasKey_mem_sorted_ids _ r hc.2
        · right; exact ⟨"py:", by simp [syntheticTags], mod, by rw [← heq]⟩
    · rcases List.mem_map.mp hef with ⟨sp, _, heq⟩
      right; exact ⟨"js:", by simp [syntheticTags], sp, by rw [← heq]⟩
    · rcases List.mem_append.mp hef with h | h
      · rcases List.mem_map.mp h with ⟨u, _, heq⟩
        right; exact ⟨"rs:", by simp [syntheticTags], u, by rw [← heq]⟩
      · rcases List.mem_map.mp h with ⟨mo, _, heq⟩
        right; exact ⟨"rsmod:", by simp [syntheticTags], mo, by rw [← heq]⟩
    · exact absurd hef (List.not_mem_nil e)
  · intro hclean e he t ht hst hmem
    rcases List.mem_map.mp hmem with ⟨n, hn, hid⟩
    have hfalse := hclean n hn t ht
    rw [hid] at hfalse
    rw [hfalse] at hst
    exact absurd hst (by simp)

/-- A Python file whose sole import resolves nowhere, on a clean scan. -/
def c6CleanRoot : WRoot := ⟨true, false, [[⟨"m.py", 9, true, false, .py (some [.imp ["os"]])⟩]]⟩

/-- Witness for `c6_synthetic_destinations`. -/
theorem c6_synthetic_destinations_witness :
    ((⟨"m.py", "py:os", .imp, ""⟩ : Edge).dst ∈
        (build_roadmap "r" ["m.py"] [c6CleanRoot] 20000).nodes.map (fun n => n.id) ∨
      ∃ t ∈ syntheticTags, ∃ raw, (⟨"m.py", "py:os", .imp, ""⟩ : Edge).dst = t ++ raw) ∧
    (⟨"m.py", "py:os", .imp, ""⟩ : Edge).dst ∉
      (build_roadmap "r" ["m.py"] [c6CleanRoot] 20000).nodes.map (fun n => n.id) :=
  ⟨(c6_synthetic_destinations "r" ["m.py"] [c6CleanRoot] 20000).1 _ (by decide),
   (c6_synthetic_destinations "r" ["m.py"] [c6CleanRoot] 20000).2 (by decide) _ (by decide)
     "py:" (by decide) (by decide)⟩

/-! ## Claim C2: order-invariance machinery -/

/-- Pointwise-equal functions give equal `flatMap`s. -/
theorem flatMapCongr {α β : Type} :
    ∀ (l : List α) (f g : α → List β), (∀ x ∈ l, f x = g x) → l.flatMap f = l.flatMap g := by
  intro l
  induction l with
  | nil => intro f g _; rfl
  | cons a t ih =>
    intro f g h
    simp only [List.flatMap_cons]
    rw [h a (List.mem_cons_self a t), ih f g (fun x hx => h x (List.mem_cons.mpr (Or.inr hx)))]

/-- Pointwise-equal functions give equal `filterMap`s. -/
theorem filterMapCongr {α β : Type} :
    ∀ (l : List α) (f g : α → Option β), (∀ x ∈ l, f x = g x) →
      l.filterMap f = l.filterMap g := by
  intro l
  induction l with
  | nil => intro f g _; rfl
  | cons a t ih =>
    intro f g h
    simp only [List.filterMap_cons]
    rw [h a (List.mem_cons_self a t), ih f g (fun x hx => h x (List.mem_cons.mpr (Or.inr hx)))]

/-- With duplicate-free paths the node index is literally the file list's
image (no overwrite ever fires). -/
theorem buildNodes_nodup_eq :
    ∀ (files : List WFile) (m : List (String × Node)),
      (files.map (fun f => f.relPath)).Nodup →
      (∀ f ∈ files, f.relPath ∉ m.map (fun p => p.1)) →
      files.foldl (fun m f => dictInsert m f.relPath (nodeOf f)) m =
        m ++ files.map (fun f => (f.relPath, nodeOf f)) := by
  intro files
  induction files with
  | nil => intro m _ _; simp
  | cons f rest ih =>
    intro m hnd hdis
    simp only [List.foldl_cons]
    have hmem : f.relPath ∉ m.map (fun p => p.1) :=
      hdis f (List.mem_cons_self f rest)
    have hins : dictInsert m f.relPath (nodeOf f) = m ++ [(f.relPath, nodeOf f)] := by
      unfold dictInsert
      rw [if_neg hmem]
    rw [hins]
    have hnd' : (rest.map (fun f => f.relPath)).Nodup := by
      simp only [List.map_cons, List.nodup_cons] at hnd
      exact hnd.2
    have hhead : f.relPath ∉ rest.map (fun g => g.relPath) := by
      simp only [List.map_cons, List.nodup_cons] at hnd
      exact hnd.1
    have hdis' : ∀ g ∈ rest, g.relPath ∉ (m ++ [(f.relPath, nodeOf f)]).map (fun p => p.1) := by
      intro g hg
      simp only [List.map_append, List.mem_append, List.map_cons, List.map_nil,
        List.mem_singleton]
      rintro (h | h)
      · exact hdis g (List.mem_cons.mpr (Or.inr hg)) h
      · exact hhead (h ▸ List.mem_map.mpr ⟨g, hg, rfl⟩)
    rw [ih (m ++ [(f.relPath, nodeOf f)]) hnd' hdis']
    simp [List.append_assoc]

/-- Key membership of the node index is invariant under reordering the
(duplicate-free) file list. -/
theorem buildNodes_hasKey_perm (files1 files2 : List WFile)
    (hp : files1.Perm files2) (hnd : (files1.map (fun f => f.relPath)).Nodup)
    (r : String) :
    dictHasKey (buildNodes files1) r = dictHasKey (buildNodes files2) r := by
  have hnd2 : (files2.map (fun f => f.relPath)).Nodup :=
    ((hp.map (fun f => f.relPath)).nodup_iff).mp hnd
  have h1 : buildNodes files1 = files1.map (fun f => (f.relPath, nodeOf f)) := by
    have := buildNodes_nodup_eq files1 [] hnd (by intro f _ hc; simp at hc)
    simpa using this
  have h2 : buildNodes files2 = files2.map (fun f => (f.relPath, nodeOf f)) := by
    have := buildNodes_nodup_eq files2 [] hnd2 (by intro f _ hc; simp at hc)
    simpa using this
  unfold dictHasKey
  rw [h1, h2]
  apply decide_eq_decide.mpr
  constructor
  · intro h
    rcases List.mem_map.mp h with ⟨p, hpm, hpr⟩
    rcases List.mem_map.mp hpm with ⟨g, hg, rfl⟩
    exact List.mem_map.mpr ⟨(g.relPath, nodeOf g),
      List.mem_map.mpr ⟨g, hp.subset hg, rfl⟩, hpr⟩
  · intro h
    rcases List.mem_map.mp h with ⟨p, hpm, hpr⟩
    rcases List.mem_map.mp hpm with ⟨g, hg, rfl⟩
    exact List.mem_map.mpr ⟨(g.relPath, nodeOf g),
      List.mem_map.mpr ⟨g, hp.symm.subset hg, rfl⟩, hpr⟩

/-- The per-file edge scan does not depend on the discovery order of the
(duplicate-free) file list behind the node index. -/
theorem edgesForFile_perm_invariant (fs : List String) (files1 files2 : List WFile)
    (hp : files1.Perm files2) (hnd : (files1.map (fun f => f.relPath)).Nodup)
    (f : WFile) (hf : f ∈ files1) :
    edgesForFile (buildNodes files1) fs f = edgesForFile (buildNodes files2) fs f := by
  have hf2 : f ∈ files2 := hp.subset hf
  have hkey := buildNodes_hasKey_perm files1 files2 hp hnd
  unfold edgesForFile
  rw [dictGet_buildNodes_lang files1 f hf, dictGet_buildNodes_lang files2 f hf2]
  split_ifs with h1 h2 h3
  · apply List.map_congr_left
    intro mod hmod
    rcases hr : resolve_py_to_node fs f.relPath mod with _ | r
    · rfl
    · dsimp only
      rw [hkey r]
  · rfl
  · rfl
  · rfl

/-- `typeStr` is injective on the edge-kind enumeration. -/
theorem typeStr_inj : ∀ t1 t2 : EdgeType, typeStr t1 = typeStr t2 → t1 = t2 := by
  intro t1 t2 h
  cases t1 <;> cases t2 <;> first | rfl | exact absurd h (by decide)

/-- The edge sort key determines the edge. -/
theorem edgeKeys_inj (a b : Edge) (h : edgeKeys a = edgeKeys b) : a = b := by
  rcases a with ⟨s1, d1, t1, n1⟩
  rcases b with ⟨s2, d2, t2, n2⟩
  simp only [edgeKeys, List.cons.injEq, SKey.s.injEq, and_true] at h
  obtain ⟨hs, hd, ht, hn⟩ := h
  rw [hs, hd, hn, typeStr_inj t1 t2 ht]

/-- The entrypoint sort key determines the triple. -/
theorem epKeys_inj (a b : EntryPoint) (h : epKeys a = epKeys b) : a = b := by
  rcases a with ⟨n1, r1, c1⟩
  rcases b with ⟨n2, r2, c2⟩
  simp only [epKeys, List.cons.injEq, SKey.s.injEq, SKey.nd.injEq, and_true] at h
  obtain ⟨hn, hc, hr⟩ := h
  rw [hn, hc, hr]

/-- C2 (amended): with the ceiling out of play (the walker's output taken as
given) and duplicate-free paths, reordering the discovered file list leaves
the sorted node, edge and entrypoint lists of the assembled graph unchanged —
the stats counter map and the ceiling-limited file selection are the two
places where iteration order still leaks (see the counterexample). -/
theorem c2_assembly_order_invariant (rootStr : String) (fs : List String)
    (files1 files2 : List WFile) (skipped : Nat)
    (hp : files1.Perm files2)
    (hnd : (files1.map (fun f => f.relPath)).Nodup) :
    (assemble_graph rootStr fs files1 skipped).nodes =
      (assemble_graph rootStr fs files2 skipped).nodes ∧
    (assemble_graph rootStr fs files1 skipped).edges =
      (assemble_graph rootStr fs files2 skipped).edges ∧
    (assemble_graph rootStr fs files1 skipped).entrypoints =
      (assemble_graph rootStr fs files2 skipped).entrypoints := by
  have hnd2 : (files2.map (fun f => f.relPath)).Nodup :=
    ((hp.map (fun f => f.relPath)).nodup_iff).mp hnd
  have hbn1 : buildNodes files1 = files1.map (fun f => (f.relPath, nodeOf f)) := by
    have := buildNodes_nodup_eq files1 [] hnd (by intro f _ hc; simp at hc)
    simpa using this
  have hbn2 : buildNodes files2 = files2.map (fun f => (f.relPath, nodeOf f)) := by
    have := buildNodes_nodup_eq files2 [] hnd2 (by intro f _ hc; simp at hc)
    simpa using this
  refine ⟨?_, ?_, ?_⟩
  · show sortBy nodeKeys ((buildNodes files1).map (fun p => p.2)) =
      sortBy nodeKeys ((buildNodes files2).map (fun p => p.2))
    rw [hbn1, hbn2]
    apply sortBy_eq_of_perm
    · exact (hp.map _).map _
    · intro a ha b hb hk
      rcases List.mem_map.mp ha with ⟨p1, hp1, rfl⟩
      rcases List.mem_map.mp hp1 with ⟨fa, hfa, rfl⟩
      rcases List.mem_map.mp hb with ⟨p2, hp2, rfl⟩
      rcases List.mem_map.mp hp2 with ⟨fb, hfb, rfl⟩
      simp only [nodeKeys, nodeOf, List.cons.injEq, SKey.s.injEq, and_true] at hk
      show nodeOf fa = nodeOf fb
      unfold nodeOf
      rw [hk]
  · show sortBy edgeKeys (files1.flatMap (edgesForFile (buildNodes files1) fs)) =
      sortBy edgeKeys (files2.flatMap (edgesForFile (buildNodes files2) fs))
    have hstep : files1.flatMap (edgesForFile (buildNodes files1) fs) =
        files1.flatMap (edgesForFile (buildNodes files2) fs) :=
      flatMapCongr files1 _ _
        (fun f hf => edgesForFile_perm_invariant fs files1 files2 hp hnd f hf)
    rw [hstep]
    apply sortBy_eq_of_perm
    · exact hp.flatMap_right _
    · intro a _ b _ hk
      exact edgeKeys_inj a b hk
  · show sortBy epKeys (detect_entrypoints_from_nodes (buildNodes files1)) =
      sortBy epKeys (detect_entrypoints_from_nodes (buildNodes files2))
    have hdet : detect_entrypoints_from_nodes (buildNodes files1) =
        detect_entrypoints_from_nodes (buildNodes files2) := by
      unfold detect_entrypoints_from_nodes
      apply sortBy_eq_of_perm
      · apply List.Perm.dedup
        apply List.Perm.append
        · rw [hbn1, hbn2]
          exact (hp.map _).flatMap_right _
        · rw [show epHints (buildNodes files1) = epHints (buildNodes files2) by
            unfold epHints
            exact filterMapCongr _ _ _
              (fun hint _ => by rw [buildNodes_hasKey_perm files1 files2 hp hnd hint])]
      · intro a _ b _ hk
        exact epKeys_inj a b hk
    rw [hdet]

/-- A Python file with no imports. -/
def c2FileA : WFile := ⟨"a.py", 0, true, false, .py (some [])⟩

/-- A JS file with no references. -/
def c2FileB : WFile := ⟨"b.js", 0, true, false, .text ""⟩

/-- One directory listed in order A, B. -/
def c2Root1 : WRoot := ⟨true, false, [[c2FileA, c2FileB]]⟩

/-- The same directory listed in order B, A. -/
def c2Root2 : WRoot := ⟨true, false, [[c2FileB, c2FileA]]⟩

/-- C2 counterexample: the same two-file snapshot walked in two different
directory-entry orders.  With the ceiling binding (`max_files = 1`) the two
runs collect different files and the graphs differ outright; even without the
ceiling, the `stats` counter dict records keys in discovery order, so the
serialized graphs differ byte-wise.  The claimed identical serialized output
under reordered directory iteration is false. -/
theorem c2_counterexample :
    [c2FileA, c2FileB].Perm [c2FileB, c2FileA] ∧
    build_roadmap "r" ["a.py", "b.js"] [c2Root1] 1 ≠
      build_roadmap "r" ["a.py", "b.js"] [c2Root2] 1 ∧
    (build_roadmap "r" ["a.py", "b.js"] [c2Root1] 20000).stats ≠
      (build_roadmap "r" ["a.py", "b.js"] [c2Root2] 20000).stats :=
  ⟨List.Perm.swap c2FileB c2FileA [], by decide, by decide⟩

/-- Witness for `c2_assembly_order_invariant`. -/
theorem c2_assembly_order_invariant_witness :
    (assemble_graph "r" ["a.py", "b.js"] [c2FileA, c2FileB] 0).nodes =
      (assemble_graph "r" ["a.py", "b.js"] [c2FileB, c2FileA] 0).nodes ∧
    (assemble_graph "r" ["a.py", "b.js"] [c2FileA, c2FileB] 0).edges =
      (assemble_graph "r" ["a.py", "b.js"] [c2FileB, c2FileA] 0).edges ∧
    (assemble_graph "r" ["a.py", "b.js"] [c2FileA, c2FileB] 0).entrypoints =
      (assemble_graph "r" ["a.py", "b.js"] [c2FileB, c2FileA] 0).entrypoints :=
  c2_assembly_order_invariant "r" ["a.py", "b.js"] [c2FileA, c2FileB] [c2FileB, c2FileA] 0
    (List.Perm.swap c2FileB c2FileA []) (by decide)

/-! ## Bounded-renderer invariants (claims C8 and C9) -/

/-- The edge-cap invariant of the inner loop: entered below the cap, the
expansion never leaves the cap exceeded (it breaks as soon as the cap is
reached). -/
theorem bfsExpand_cap (maxE : Nat) (node : String) (depth : Nat) :
    ∀ (dsts : List String) (st : BfsState), st.shown.length < maxE →
      (bfsExpand maxE node depth dsts st).shown.length ≤ maxE := by
  intro dsts
  induction dsts with
  | nil => intro st h; exact le_of_lt h
  | cons dst rest ih =>
    intro st h
    simp only [bfsExpand]
    split_ifs with h1 h2 h3 h4
    · exact ih st h
    · simp only [List.length_append, List.length_cons, List.length_nil]
      omega
    · apply ih
      simp only [List.length_append, List.length_cons, List.length_nil] at h3 ⊢
      omega
    · simp only [List.length_append, List.length_cons, List.length_nil]
      omega
    · apply ih
      simp only [List.length_append, List.length_cons, List.length_nil] at h4 ⊢
      omega

/-- Unpacking a false loop guard. -/
theorem bfsDone_false {maxE : Nat} {st : BfsState} (h : bfsDone maxE st = false) :
    st.q ≠ [] ∧ st.shown.length < maxE := by
  unfold bfsDone at h
  rcases Bool.or_eq_false_iff.mp h with ⟨h1, h2⟩
  constructor
  · intro hq
    rw [hq] at h1
    simp at h1
  · exact Nat.not_le.mp (by simpa using h2)

/-- One loop iteration keeps the emitted list below or at the cap. -/
theorem bfsStep_cap (adj : List (String × List String)) (maxD maxE : Nat)
    (st : BfsState) (h : bfsDone maxE st = false) :
    (bfsStep adj maxD maxE st).shown.length ≤ maxE := by
  obtain ⟨hq, hlen⟩ := bfsDone_false h
  rcases hst : st.q with _ | ⟨⟨node, depth⟩, rest⟩
  · exact absurd hst hq
  · simp only [bfsStep, hst]
    split_ifs with hd
    · exact le_of_lt hlen
    · exact bfsExpand_cap maxE node depth _ _ hlen

/-- The whole loop never exceeds the edge cap. -/
theorem bfsRun_cap (adj : List (String × List String)) (maxD maxE : Nat) :
    ∀ (fuel : Nat) (st : BfsState), st.shown.length ≤ maxE →
      (bfsRun adj maxD maxE fuel st).shown.length ≤ maxE := by
  intro fuel
  induction fuel with
  | zero => intro st h; exact h
  | succ n ih =>
    intro st h
    simp only [bfsRun]
    split_ifs with hd
    · exact h
    · exact ih _ (bfsStep_cap adj maxD maxE st (Bool.eq_false_iff.mpr hd))

/-- The emitted list and the visited-edge set stay in lockstep, and the
visited-edge set stays duplicate-free (an edge already in the set is skipped,
so no `(source, destination)` pair is ever emitted twice). -/
theorem bfsExpand_edges (maxE : Nat) (node : String) (depth : Nat) :
    ∀ (dsts : List String) (st : BfsState),
      st.shown = st.seen_edges → st.seen_edges.Nodup →
      (bfsExpand maxE node depth dsts st).shown =
        (bfsExpand maxE node depth dsts st).seen_edges ∧
      (bfsExpand maxE node depth dsts st).seen_edges.Nodup := by
  intro dsts
  induction dsts with
  | nil => intro st hsync hnd; exact ⟨hsync, hnd⟩
  | cons dst rest ih =>
    intro st hsync hnd
    simp only [bfsExpand]
    split_ifs with h1 h2 h3 h4
    · exact ih st hsync hnd
    · refine ⟨?_, ?_⟩
      · simp only [hsync]
      · simp only [List.nodup_append, List.nodup_cons, List.not_mem_nil,
          not_false_iff, List.nodup_nil, true_and, and_true]
        simp [hnd, h1]
    · apply ih
      · simp only [hsync]
      · simp only [List.nodup_append]
        simp [hnd, h1]
    · refine ⟨?_, ?_⟩
      · simp only [hsync]
      · simp only [List.nodup_append]
        simp [hnd, h1]
    · apply ih
      · simp only [hsync]
      · simp only [List.nodup_append]
        simp [hnd, h1]

/-- Per-iteration version of `bfsExpand_edges`. -/
theorem bfsStep_edges (adj : List (String × List String)) (maxD maxE : Nat)
    (st : BfsState) (hsync : st.shown = st.seen_edges) (hnd : st.seen_edges.Nodup) :
    (bfsStep adj maxD maxE st).shown = (bfsStep adj maxD maxE st).seen_edges ∧
    (bfsStep adj maxD maxE st).seen_edges.Nodup := by
  rcases hst : st.q with _ | ⟨⟨node, depth⟩, rest⟩
  · simp only [bfsStep, hst]
    exact ⟨hsync, hnd⟩
  · simp only [bfsStep, hst]
    split_ifs with hd
    · exact ⟨hsync, hnd⟩
    · exact bfsExpand_edges maxE node depth _ _ hsync hnd

/-- Whole-loop version of `bfsExpand_edges`. -/
theorem bfsRun_edges (adj : List (String × List String)) (maxD maxE : Nat) :
    ∀ (fuel : Nat) (st : BfsState),
      st.shown = st.seen_edges → st.seen_edges.Nodup →
      (bfsRun adj maxD maxE fuel st).shown =
        (bfsRun adj maxD maxE fuel st).seen_edges ∧
      (bfsRun adj maxD maxE fuel st).seen_edges.Nodup := by
  intro fuel
  induction fuel with
  | zero => intro st hsync hnd; exact ⟨hsync, hnd⟩
  | succ n ih =>
    intro st hsync hnd
    simp only [bfsRun]
    split_ifs with hd
    · exact ⟨hsync, hnd⟩
    · obtain ⟨h1, h2⟩ := bfsStep_edges adj maxD maxE st hsync hnd
      exact ih _ h1 h2

/-- The visited-node set never takes a duplicate: a destination is enqueued
only when absent and is recorded at that moment. -/
theorem bfsExpand_nodes_nodup (maxE : Nat) (node : String) (depth : Nat) :
    ∀ (dsts : List String) (st : BfsState), st.seen_nodes.Nodup →
      (bfsExpand maxE node depth dsts st).seen_nodes.Nodup := by
  intro dsts
  induction dsts with
  | nil => intro st h; exact h
  | cons dst rest ih =>
    intro st h
    simp only [bfsExpand]
    split_ifs with h1 h2 h3 h4
    · exact ih st h
    · exact h
    · exact ih _ h
    · simp only [List.nodup_append]
      simp [h, h2]
    · apply ih
      simp only [List.nodup_append]
      simp [h, h2]

/-- Per-iteration version of `bfsExpand_nodes_nodup`. -/
theorem bfsStep_nodes_nodup (adj : List (String × List String)) (maxD maxE : Nat)
    (st : BfsState) (h : st.seen_nodes.Nodup) :
    (bfsStep adj maxD maxE st).seen_nodes.Nodup := by
  rcases hst : st.q with _ | ⟨⟨node, depth⟩, rest⟩
  · simp only [bfsStep, hst]; exact h
  · simp only [bfsStep, hst]
    split_ifs with hd
    · exact h
    · exact bfsExpand_nodes_nodup maxE node depth _ _ h

/-- Whole-loop version of `bfsExpand_nodes_nodup`. -/
theorem bfsRun_nodes_nodup (adj : List (String × List String)) (maxD maxE : Nat) :
    ∀ (fuel : Nat) (st : BfsState), st.seen_nodes.Nodup →
      (bfsRun adj maxD maxE fuel st).seen_nodes.Nodup := by
  intro fuel
  induction fuel with
  | zero => intro st h; exact h
  | succ n ih =>
    intro st h
    simp only [bfsRun]
    split_ifs with hd
    · exact h
    · exact ih _ (bfsStep_nodes_nodup adj maxD maxE st h)

/-- `ReachIn adj entry k n`: `n` is reachable from some seed in at most `k`
adjacency steps. -/
def ReachIn (adj : List (String × List String)) (entry : List String) :
    Nat → String → Prop
  | 0, n => n ∈ entry
  | k + 1, n => n ∈ entry ∨ ∃ m, ReachIn adj entry k m ∧ n ∈ adjGet adj m

/-- Expansion preserves the queue/emission reachability invariants: queued
nodes are reachable within their recorded depth, and every emitted pair's
source lies strictly below the depth cap from some seed. -/
theorem bfsExpand_reach (adj : List (String × List String))
    (entry : List String) (maxD maxE : Nat) (node : String) (depth : Nat)
    (hnode : ReachIn adj entry depth node) (hdep : depth < maxD) :
    ∀ (dsts : List String) (st : BfsState),
      (∀ d ∈ dsts, d ∈ adjGet adj node) →
      (∀ p ∈ st.q, ReachIn adj entry p.2 p.1) →
      (∀ p ∈ st.shown, ∃ k, k < maxD ∧ ReachIn adj entry k p.1) →
      (∀ p ∈ (bfsExpand maxE node depth dsts st).q, ReachIn adj entry p.2 p.1) ∧
      (∀ p ∈ (bfsExpand maxE node depth dsts st).shown,
        ∃ k, k < maxD ∧ ReachIn adj entry k p.1) := by
  intro dsts
  induction dsts with
  | nil => intro st _ hq hs; exact ⟨hq, hs⟩
  | cons dst rest ih =>
    intro st hsub hq hs
    have hshown : ∀ p ∈ st.shown ++ [(node, dst)],
        ∃ k, k < maxD ∧ ReachIn adj entry k p.1 := by
      intro p hp
      rcases List.mem_append.mp hp with h | h
      · exact hs p h
      · rw [List.mem_singleton.mp h]
        exact ⟨depth, hdep, hnode⟩
    have hqueue : ∀ p ∈ st.q ++ [(dst, depth + 1)], ReachIn adj entry p.2 p.1 := by
      intro p hp
      rcases List.mem_append.mp hp with h | h
      · exact hq p h
      · rw [List.mem_singleton.mp h]
        exact Or.inr ⟨node, hnode, hsub dst (List.mem_cons_self dst rest)⟩
    have hsub' : ∀ d ∈ rest, d ∈ adjGet adj node :=
      fun d hd => hsub d (List.mem_cons.mpr (Or.inr hd))
    simp only [bfsExpand]
    split_ifs with h1 h2 h3 h4
    · exact ih st hsub' hq hs
    · exact ⟨hq, hshown⟩
    · exact ih _ hsub' hq hshown
    · exact ⟨hqueue, hshown⟩
    · exact ih _ hsub' hqueue hshown

/-- Per-iteration reachability invariant. -/
theorem bfsStep_reach (adj : List (String × List String)) (entry : List String)
    (maxD maxE : Nat) (st : BfsState)
    (hq : ∀ p ∈ st.q, ReachIn adj entry p.2 p.1)
    (hs : ∀ p ∈ st.shown, ∃ k, k < maxD ∧ ReachIn adj entry k p.1) :
    (∀ p ∈ (bfsStep adj maxD maxE st).q, ReachIn adj entry p.2 p.1) ∧
    (∀ p ∈ (bfsStep adj maxD maxE st).shown,
      ∃ k, k < maxD ∧ ReachIn adj entry k p.1) := by
  rcases hst : st.q with _ | ⟨⟨node, depth⟩, rest⟩
  · simp only [bfsStep, hst]
    exact ⟨fun p hp => hq p (by rw [hst]; exact hp), hs⟩
  · have hq' : ∀ p ∈ rest, ReachIn adj entry p.2 p.1 := by
      intro p hp
      exact hq p (by rw [hst]; exact List.mem_cons.mpr (Or.inr hp))
    simp only [bfsStep, hst]
    split_ifs with hd
    · exact ⟨hq', hs⟩
    · exact bfsExpand_reach adj entry maxD maxE node depth
        (hq (node, depth) (by rw [hst]; exact List.mem_cons_self _ _))
        (Nat.not_le.mp hd) _ _ (fun d hd => hd) hq' hs

/-- Whole-loop reachability invariant. -/
theorem bfsRun_reach (adj : List (String × List String)) (entry : List String)
    (maxD maxE : Nat) :
    ∀ (fuel : Nat) (st : BfsState),
      (∀ p ∈ st.q, ReachIn adj entry p.2 p.1) →
      (∀ p ∈ st.shown, ∃ k, k < maxD ∧ ReachIn adj entry k p.1) →
      ∀ p ∈ (bfsRun adj maxD maxE fuel st).shown,
        ∃ k, k < maxD ∧ ReachIn adj entry k p.1 := by
  intro fuel
  induction fuel with
  | zero => intro st _ hs; exact hs
  | succ n ih =>
    intro st hq hs
    simp only [bfsRun]
    split_ifs with hd
    · exact hs
    · obtain ⟨h1, h2⟩ := bfsStep_reach adj entry maxD maxE st hq hs
      exact ih _ h1 h2

/-- All destinations appearing in the adjacency (deduplicated): the universe
of nodes the loop can ever enqueue. -/
def allDsts (adj : List (String × List String)) : List String :=
  (adj.flatMap (fun p => p.2)).dedup

/-- The loop's termination measure: queue length plus not-yet-visited
enqueueable nodes. -/
def bfsMeasure (adj : List (String × List String)) (st : BfsState) : Nat :=
  st.q.length +
    ((allDsts adj).filter (fun n => !decide (n ∈ st.seen_nodes))).length

/-- A neighbour list is contained in the destination universe. -/
theorem adjGet_subset_allDsts (adj : List (String × List String)) (node : String) :
    ∀ d ∈ adjGet adj node, d ∈ allDsts adj := by
  intro d hd
  apply List.mem_dedup.mpr
  induction adj with
  | nil => simp [adjGet] at hd
  | cons p rest ih =>
    rcases p with ⟨s, ds⟩
    simp only [adjGet] at hd
    simp only [List.flatMap_cons, List.mem_append]
    by_cases hs : s = node
    · rw [if_pos hs] at hd
      exact Or.inl hd
    · rw [if_neg hs] at hd
      exact Or.inr (ih hd)

/-- Visiting a fresh universe member shrinks the unvisited count by one. -/
theorem filter_visit_length :
    ∀ (U : List String), U.Nodup → ∀ (seen : List String) (d : String),
      d ∈ U → d ∉ seen →
      (U.filter (fun n => !decide (n ∈ seen ++ [d]))).length + 1 =
      (U.filter (fun n => !decide (n ∈ seen))).length := by
  intro U
  induction U with
  | nil => intro _ seen d hd _; exact absurd hd (List.not_mem_nil d)
  | cons x rest ih =>
    intro hU seen d hd hds
    have hnd := List.nodup_cons.mp hU
    by_cases hxd : x = d
    · subst hxd
      have htails : rest.filter (fun n => !decide (n ∈ seen ++ [x])) =
          rest.filter (fun n => !decide (n ∈ seen)) := by
        apply List.filter_congr
        intro n hn
        have hnx : ¬ n = x := fun hc => hnd.1 (hc ▸ hn)
        have hiff : (n ∈ seen ++ [x]) ↔ (n ∈ seen) := by
          simp [List.mem_append, hnx]
        rw [decide_eq_decide.mpr hiff]
      simp only [List.filter_cons]
      rw [htails, show (!decide (x ∈ seen ++ [x])) = false by simp,
        show (!decide (x ∈ seen)) = true by simp [hds]]
      simp
    · have hd' : d ∈ rest := by
        rcases List.mem_cons.mp hd with h | h
        · exact absurd h.symm hxd
        · exact h
      have hxiff : (x ∈ seen ++ [d]) ↔ (x ∈ seen) := by
        simp [List.mem_append, hxd]
      have hx : (!decide (x ∈ seen ++ [d])) = (!decide (x ∈ seen)) := by
        rw [decide_eq_decide.mpr hxiff]
      simp only [List.filter_cons, hx]
      by_cases hxs : (!decide (x ∈ seen)) = true
      · rw [hxs]
        simp only [if_true, List.length_cons]
        have := ih hnd.2 seen d hd' hds
        omega
      · rw [Bool.eq_false_iff.mpr hxs]
        simp only [Bool.false_eq_true, if_false]
        exact ih hnd.2 seen d hd' hds

/-- Expansion never increases the measure: each enqueue is paid for by a
fresh visited node. -/
theorem bfsExpand_measure (adj : List (String × List String)) (maxE : Nat)
    (node : String) (depth : Nat) :
    ∀ (dsts : List String) (st : BfsState),
      (∀ d ∈ dsts, d ∈ allDsts adj) →
      bfsMeasure adj (bfsExpand maxE node depth dsts st) ≤ bfsMeasure adj st := by
  intro dsts
  induction dsts with
  | nil => intro st _; exact le_refl _
  | cons dst rest ih =>
    intro st hsub
    have hsub' : ∀ d ∈ rest, d ∈ allDsts adj :=
      fun d hd => hsub d (List.mem_cons.mpr (Or.inr hd))
    simp only [bfsExpand]
    split_ifs with h1 h2 h3 h4
    · exact ih st hsub'
    · exact le_refl _
    · exact ih _ hsub'
    · have hv := filter_visit_length (allDsts adj) (List.nodup_dedup _)
        st.seen_nodes dst (hsub dst (List.mem_cons_self dst rest)) h2
      simp only [bfsMeasure, List.length_append, List.length_cons, List.length_nil]
      omega
    · have hrec := ih (⟨st.q ++ [(dst, depth + 1)], st.seen_edges ++ [(node, dst)],
        st.shown ++ [(node, dst)], st.seen_nodes ++ [dst]⟩ : BfsState) hsub'
      refine le_trans hrec ?_
      have hv := filter_visit_length (allDsts adj) (List.nodup_dedup _)
        st.seen_nodes dst (hsub dst (List.mem_cons_self dst rest)) h2
      simp only [bfsMeasure, List.length_append, List.length_cons, List.length_nil]
      omega

/-- A non-final iteration strictly decreases the measure. -/
theorem bfsStep_measure (adj : List (String × List String)) (maxD maxE : Nat)
    (st : BfsState) (h : bfsDone maxE st = false) :
    bfsMeasure adj (bfsStep adj maxD maxE st) < bfsMeasure adj st := by
  obtain ⟨hq, _⟩ := bfsDone_false h
  rcases hst : st.q with _ | ⟨⟨node, depth⟩, rest⟩
  · exact absurd hst hq
  · simp only [bfsStep, hst]
    split_ifs with hd
    · simp only [bfsMeasure, hst, List.length_cons]
      omega
    · have hexp := bfsExpand_measure adj maxE node depth (adjGet adj node)
        (⟨rest, st.seen_edges, st.shown, st.seen_nodes⟩ : BfsState)
        (adjGet_subset_allDsts adj node)
      refine lt_of_le_of_lt hexp ?_
      simp only [bfsMeasure, hst, List.length_cons]
      omega

/-- With fuel at least the measure, the loop reaches its exit condition:
this is the termination of the Python `while` loop. -/
theorem bfsRun_done (adj : List (String × List String)) (maxD maxE : Nat) :
    ∀ (fuel : Nat) (st : BfsState), bfsMeasure adj st ≤ fuel →
      bfsDone maxE (bfsRun adj maxD maxE fuel st) = true := by
  intro fuel
  induction fuel with
  | zero =>
    intro st h
    have hq : st.q = [] := by
      have : st.q.length = 0 := by
        simp only [bfsMeasure] at h
        omega
      exact List.length_eq_zero.mp this
    simp only [bfsRun, bfsDone, hq]
    simp
  | succ n ih =>
    intro st h
    simp only [bfsRun]
    split_ifs with hd
    · exact hd
    · have hd' : bfsDone maxE st = false := Bool.eq_false_iff.mpr hd
      have hlt := bfsStep_measure adj maxD maxE st hd'
      exact ih _ (by omega)

/-- The initial measure is bounded by the fuel the renderer supplies. -/
theorem bfsMeasure_init_le (adj : List (String × List String)) (entry : List String) :
    bfsMeasure adj (bfsInit entry) ≤ bfsFuel adj entry := by
  simp only [bfsMeasure, bfsInit, bfsFuel, List.length_map, allDsts]
  have := List.length_filter_le (fun n => !decide (n ∈ entry))
    ((adj.flatMap (fun p => p.2)).dedup)
  omega

/-! ## Claims C8 and C9 -/

/-- C8 (confirmed): the bounded renderer emits at most `max_edges` edges,
emits each `(source, destination)` pair at most once (even when several
reference kinds connect the pair — the adjacency keeps one entry per edge,
and the visited-edge set collapses them), and only expands nodes lying
strictly below the depth cap from some seed entrypoint: every emitted edge's
source is reachable from a seed within fewer than `max_depth` steps. -/
theorem c8_bounded_renderer (g : RoadmapGraph) (maxD maxE : Nat) :
    (mermaidBfsState g maxD maxE).shown.length ≤ maxE ∧
    (mermaidBfsState g maxD maxE).shown.Nodup ∧
    ∀ p ∈ (mermaidBfsState g maxD maxE).shown,
      ∃ k, k < maxD ∧
        ReachIn (buildAdj g.edges) (g.entrypoints.map (fun ep => ep.node)) k p.1 := by
  refine ⟨?_, ?_, ?_⟩
  · exact bfsRun_cap (buildAdj g.edges) maxD maxE
      (bfsFuel (buildAdj g.edges) (g.entrypoints.map (fun ep => ep.node)))
      (bfsInit (g.entrypoints.map (fun ep => ep.node))) (by simp [bfsInit])
  · have h := bfsRun_edges (buildAdj g.edges) maxD maxE
      (bfsFuel (buildAdj g.edges) (g.entrypoints.map (fun ep => ep.node)))
      (bfsInit (g.entrypoints.map (fun ep => ep.node))) rfl List.nodup_nil
    have hsync : (mermaidBfsState g maxD maxE).shown =
        (mermaidBfsState g maxD maxE).seen_edges := h.1
    rw [hsync]
    exact h.2
  · exact bfsRun_reach (buildAdj g.edges) (g.entrypoints.map (fun ep => ep.node))
      maxD maxE (bfsFuel (buildAdj g.edges) (g.entrypoints.map (fun ep => ep.node)))
      (bfsInit (g.entrypoints.map (fun ep => ep.node)))
      (by
        intro p hp
        rcases List.mem_map.mp hp with ⟨n, hn, rfl⟩
        exact hn)
      (by intro p hp; exact absurd hp (List.not_mem_nil p))

/-- The spec's reference-cycle scenario: two files referencing each other,
traversed from one entrypoint. -/
def cycleGraph : RoadmapGraph :=
  { version := 1
    root := "repo"
    nodes := [⟨"a.py", "a.py", .python⟩, ⟨"b.py", "b.py", .python⟩]
    edges := [⟨"a.py", "b.py", .imp, ""⟩, ⟨"b.py", "a.py", .imp, ""⟩]
    entrypoints := [⟨"a.py", "cycle entry", 3⟩]
    stats := [] }

/-- Witness for `c8_bounded_renderer`. -/
theorem c8_bounded_renderer_witness :
    (mermaidBfsState cycleGraph 2 180).shown.length ≤ 180 ∧
    (mermaidBfsState cycleGraph 2 180).shown.Nodup ∧
    (∃ k, k < 2 ∧ ReachIn (buildAdj cycleGraph.edges)
      (cycleGraph.entrypoints.map (fun ep => ep.node)) k "b.py") :=
  ⟨(c8_bounded_renderer cycleGraph 2 180).1,
   (c8_bounded_renderer cycleGraph 2 180).2.1,
   (c8_bounded_renderer cycleGraph 2 180).2.2 ("b.py", "a.py") (by decide)⟩

/-- C9 (confirmed): the bounded traversal always terminates — within
`bfsFuel` iterations the loop guard goes false, because a node is enqueued
only when first visited (never re-enqueued, so the visited-node list stays
duplicate-free whenever the seeds are distinct) — and on the two-file
reference cycle with depth 2 it emits each direction-edge exactly once. -/
theorem c9_cycle_safe_termination :
    (∀ (g : RoadmapGraph) (maxD maxE : Nat),
      bfsDone maxE (mermaidBfsState g maxD maxE) = true) ∧
    (∀ (g : RoadmapGraph) (maxD maxE : Nat),
      (g.entrypoints.map (fun ep => ep.node)).Nodup →
      (mermaidBfsState g maxD maxE).seen_nodes.Nodup) ∧
    render_mermaid_bfs cycleGraph 2 180 =
      ["  \"a.py\" --> \"b.py\"", "  \"b.py\" --> \"a.py\""] := by
  refine ⟨?_, ?_, by decide⟩
  · intro g maxD maxE
    exact bfsRun_done (buildAdj g.edges) maxD maxE
      (bfsFuel (buildAdj g.edges) (g.entrypoints.map (fun ep => ep.node)))
      (bfsInit (g.entrypoints.map (fun ep => ep.node)))
      (bfsMeasure_init_le (buildAdj g.edges) (g.entrypoints.map (fun ep => ep.node)))
  · intro g maxD maxE hnd
    exact bfsRun_nodes_nodup (buildAdj g.edges) maxD maxE
      (bfsFuel (buildAdj g.edges) (g.entrypoints.map (fun ep => ep.node)))
      (bfsInit (g.entrypoints.map (fun ep => ep.node)))
      (by simpa [bfsInit] using hnd)

/-- Witness for `c9_cycle_safe_termination`. -/
theorem c9_cycle_safe_termination_witness :
    bfsDone 180 (mermaidBfsState cycleGraph 2 180) = true ∧
    (mermaidBfsState cycleGraph 2 180).seen_nodes.Nodup :=
  ⟨c9_cycle_safe_termination.1 cycleGraph 2 180,
   c9_cycle_safe_termination.2.1 cycleGraph 2 180 (by decide)⟩
